import Mathlib

/-!
# Verification of the wiki-search-rs core

A shallow embedding of the wiki-search-rs search engine (tokenizer, index
builder, on-disk postings format, query evaluator with BM25 ranking, snippet
extraction, and the dump-ingestion loop), together with proofs and refutations
of the specification's claims about it.

Strings are modelled as lists of characters (`Str`); after the analyzer's
non-ASCII stripping all text handled by the program is ASCII, where Rust's
byte indices coincide with character indices, so this is faithful.  Rust
`HashMap`s are modelled as association lists with insert-replace semantics
(`insertA`); where the source iterates a `HashMap` in unspecified order the
model iterates the association list, which is sound because the iterated
effects commute across distinct keys.  `f64` arithmetic is modelled over `ℝ`.
The English stemmer comes from an external crate, so functions that stem are
parameterised by an abstract `stem : Str → Str`.
-/

abbrev Str := List Char

def str (s : String) : Str := s.toList

/-- Model of Rust `char::is_ascii`. -/
def isAsciiChar (c : Char) : Bool := c.toNat < 128

/-- ASCII lowercasing, the restriction of Rust `to_lowercase` to the ASCII
text the analyzer ends up keeping. -/
def asciiToLower (c : Char) : Char :=
  if 65 ≤ c.toNat ∧ c.toNat ≤ 90 then Char.ofNat (c.toNat + 32) else c

/-- Model of Rust `char::is_alphanumeric` on ASCII text. -/
def isAlnumChar (c : Char) : Bool :=
  decide (('0' ≤ c ∧ c ≤ '9') ∨ ('a' ≤ c ∧ c ≤ 'z') ∨ ('A' ≤ c ∧ c ≤ 'Z'))

/-- Whitespace as recognised by Rust `split_whitespace` (ASCII fragment). -/
def isWsChar (c : Char) : Bool := c == ' ' || c == '\n' || c == '\t' || c == '\r'

/-! ## Association-list maps (model of `HashMap` / `BTreeMap`) -/

def lookupA {K V : Type} [DecidableEq K] : List (K × V) → K → Option V
  | [], _ => none
  | (k', v) :: rest, k => if k = k' then some v else lookupA rest k

/-- `HashMap::insert`: replace the binding in place, or append a new one. -/
def insertA {K V : Type} [DecidableEq K] : List (K × V) → K → V → List (K × V)
  | [], k, v => [(k, v)]
  | (k', v') :: rest, k, v =>
    if k = k' then (k, v) :: rest else (k', v') :: insertA rest k v

/-- `HashMap::entry(k).or_insert(dflt)` followed by an update `f`. -/
def upsertA {K V : Type} [DecidableEq K] : List (K × V) → K → V → (V → V) → List (K × V)
  | [], k, dflt, f => [(k, f dflt)]
  | (k', v') :: rest, k, dflt, f =>
    if k = k' then (k, f v') :: rest else (k', v') :: upsertA rest k dflt f

theorem lookupA_insertA {K V : Type} [DecidableEq K]
    (m : List (K × V)) (k k' : K) (v : V) :
    lookupA (insertA m k v) k' = if k' = k then some v else lookupA m k' := by
  induction m with
  | nil => simp [insertA, lookupA]
  | cons e rest ih =>
    rcases e with ⟨ek, ev⟩
    by_cases hk : k = ek
    · subst hk
      by_cases hk' : k' = k <;> simp [insertA, lookupA, hk']
    · by_cases hk' : k' = ek
      · subst hk'
        have hne : ¬ k' = k := fun h => hk h.symm
        simp [insertA, lookupA, hk, hne]
      · simp [insertA, lookupA, hk, hk', ih]

theorem lookupA_upsertA {K V : Type} [DecidableEq K]
    (m : List (K × V)) (k k' : K) (dflt : V) (f : V → V) :
    lookupA (upsertA m k dflt f) k' =
      if k' = k then some (f ((lookupA m k).getD dflt)) else lookupA m k' := by
  induction m with
  | nil => simp [upsertA, lookupA]
  | cons e rest ih =>
    rcases e with ⟨ek, ev⟩
    by_cases hk : k = ek
    · subst hk
      by_cases hk' : k' = k <;> simp [upsertA, lookupA, hk']
    · by_cases hk' : k' = ek
      · subst hk'
        have hne : ¬ k' = k := fun h => hk h.symm
        simp [upsertA, lookupA, hk, hne]
      · simp [upsertA, lookupA, hk, hk', ih]

/-! ## Decimal rendering and parsing (model of `format!("{}")` / `str::parse`) -/

def natToCharsGo : ℕ → ℕ → List Char → List Char
  | 0, _, acc => acc
  | fuel + 1, n, acc =>
    if n < 10 then Nat.digitChar n :: acc
    else natToCharsGo fuel (n / 10) (Nat.digitChar (n % 10) :: acc)

/-- Decimal rendering of a natural number (model of `format!("{}", n)`);
fuel-based so that it reduces definitionally. -/
def natToChars (n : ℕ) : List Char := natToCharsGo (n + 1) n []

theorem natToCharsGo_fuel : ∀ fuel fuel' n acc, n < fuel → n < fuel' →
    natToCharsGo fuel n acc = natToCharsGo fuel' n acc := by
  intro fuel
  induction fuel with
  | zero => intro fuel' n acc h; omega
  | succ f ih =>
    intro fuel' n acc h h'
    cases fuel' with
    | zero => omega
    | succ f' =>
      by_cases h10 : n < 10
      · simp [natToCharsGo, h10]
      · have hd : n / 10 < n := Nat.div_lt_self (by omega) (by omega)
        simp only [natToCharsGo, h10, if_false]
        exact ih f' (n / 10) _ (by omega) (by omega)

theorem natToCharsGo_acc : ∀ fuel n acc, n < fuel →
    natToCharsGo fuel n acc = natToCharsGo fuel n [] ++ acc := by
  intro fuel
  induction fuel with
  | zero => intro n acc h; omega
  | succ f ih =>
    intro n acc h
    by_cases h10 : n < 10
    · simp [natToCharsGo, h10]
    · have hd : n / 10 < n := Nat.div_lt_self (by omega) (by omega)
      simp only [natToCharsGo, h10, if_false]
      rw [ih (n / 10) _ (by omega), ih (n / 10) [Nat.digitChar (n % 10)] (by omega)]
      simp

/-- The recursion equation of decimal rendering. -/
theorem natToChars_unfold (n : ℕ) :
    natToChars n =
      if n < 10 then [Nat.digitChar n]
      else natToChars (n / 10) ++ [Nat.digitChar (n % 10)] := by
  by_cases h10 : n < 10
  · simp [natToChars, natToCharsGo, h10]
  · have hd : n / 10 < n := Nat.div_lt_self (by omega) (by omega)
    have e1 : natToChars n = natToCharsGo n (n / 10) [Nat.digitChar (n % 10)] := by
      simp [natToChars, natToCharsGo, h10]
    rw [e1, natToCharsGo_acc n (n / 10) _ (by omega),
      natToCharsGo_fuel n (n / 10 + 1) (n / 10) _ (by omega) (by omega)]
    simp [natToChars, h10]

def digitVal (c : Char) : Option ℕ :=
  if decide ('0' ≤ c ∧ c ≤ '9') then some (c.toNat - 48) else none

def charsToNatGo (acc : ℕ) : Str → Option ℕ
  | [] => some acc
  | c :: cs =>
    match digitVal c with
    | some d => charsToNatGo (acc * 10 + d) cs
    | none => none

/-- `str::parse::<usize>` on the token strings produced by `split_whitespace`. -/
def charsToNat : Str → Option ℕ
  | [] => none
  | c :: cs => charsToNatGo 0 (c :: cs)

/-! ## The analyzer (`common.rs::tokenize`, `tokenize_with_positions`)

The source lowercases, strips non-ASCII characters, and walks the cleaned
text emitting each maximal alphanumeric run together with its start index.
`runsGo` reproduces that walk; `acc` carries the start index and the reversed
characters of the run in progress. -/

def runsGo (i : ℕ) (acc : Option (ℕ × Str)) : Str → List (Str × ℕ)
  | [] =>
    match acc with
    | none => []
    | some (st, rc) => [(rc.reverse, st)]
  | c :: cs =>
    if isAlnumChar c then
      match acc with
      | none => runsGo (i + 1) (some (i, [c])) cs
      | some (st, rc) => runsGo (i + 1) (some (st, c :: rc)) cs
    else
      match acc with
      | none => runsGo (i + 1) none cs
      | some (st, rc) => (rc.reverse, st) :: runsGo (i + 1) none cs

def cleanLower (t : Str) : Str := (t.map asciiToLower).filter isAsciiChar

def runsOf (t : Str) : List (Str × ℕ) := runsGo 0 none t

/-- `common.rs::tokenize` (and the identical copy in `index_builder.rs`),
parameterised by the external English stemmer. -/
def tokenize (stem : Str → Str) (text : Str) : List Str :=
  (runsOf (cleanLower text)).map (fun r => stem r.1)

/-- `common.rs::tokenize_with_positions`: map each stemmed token to the start
indices (in the cleaned text) of its source runs, in increasing order. -/
def tokenizeWithPositions (stem : Str → Str) (text : Str) : List (Str × List ℕ) :=
  (runsOf (cleanLower text)).foldl
    (fun m r => upsertA m (stem r.1) [] (fun ps => ps ++ [r.2])) []

/-! ## The index builder (`index_engine/index_builder.rs`)

`invFiles` models the on-disk postings files keyed by token id (the real path
is `index_path/inv_index/<token_id/1000>/<token_id>.txt`; the shard directory
is a pure function of the token id, so keying by token id loses nothing). -/

structure ArticleR where
  id : ℕ
  title : Str
  text : Str
deriving DecidableEq

structure Builder where
  curTokenId : ℕ
  idToToken : List (ℕ × Str)
  tokenToId : List (Str × ℕ)
  invIndex : List (ℕ × List (ℕ × ℕ))
  docLengths : List (ℕ × ℕ)
  invFiles : List (ℕ × Str)
deriving DecidableEq

def emptyBuilder : Builder := ⟨0, [], [], [], [], []⟩

def MAX_POSTINGS_LIST_SIZE : ℕ := 10000

def MAX_POSTINGS_LIST_DIRECTORY_SIZE : ℕ := 1000

/-- Shard directory of a postings file, `token_id / 1000`. -/
def postingsShard (tokenId : ℕ) : ℕ := tokenId / MAX_POSTINGS_LIST_DIRECTORY_SIZE

/-- `IndexBuilder::get_token_id`. -/
def getTokenId (b : Builder) (tok : Str) : ℕ × Builder :=
  match lookupA b.tokenToId tok with
  | some id => (id, b)
  | none =>
    (b.curTokenId,
     { b with
        curTokenId := b.curTokenId + 1
        idToToken := insertA b.idToToken b.curTokenId tok
        tokenToId := insertA b.tokenToId tok b.curTokenId })

/-- `IndexBuilder::get_token_ids`. -/
def getTokenIds : Builder → List Str → List ℕ × Builder
  | b, [] => ([], b)
  | b, t :: ts =>
    let r := getTokenId b t
    let rs := getTokenIds r.2 ts
    (r.1 :: rs.1, rs.2)

/-- `IndexBuilder::count_words`: per-article term frequencies, accumulated in
token order. -/
def countWords (ids : List ℕ) : List (ℕ × ℕ) :=
  ids.foldl (fun m id => upsertA m id 0 (fun c => c + 1)) []

/-- `Vec::join("\n")`. -/
def joinLines : List Str → Str
  | [] => []
  | [l] => l
  | l :: ls => l ++ '\n' :: joinLines ls

/-- One postings line, `format!("{} {}", article_id, count)`. -/
def renderEntry (e : ℕ × ℕ) : Str := natToChars e.1 ++ [' '] ++ natToChars e.2

/-- A spilled batch: lines joined with `"\n"` plus a trailing `"\n"`. -/
def renderBatch (l : List (ℕ × ℕ)) : Str := joinLines (l.map renderEntry) ++ ['\n']

/-- `IndexBuilder::update_inv_index_file`: append the buffered batch to the
token's postings file and clear the buffer.  (On a token id absent from
`inv_index` the source returns an `Err`; both call sites pass present keys,
and the model leaves the state unchanged in that case.) -/
def updateInvIndexFile (b : Builder) (tokenId : ℕ) : Builder :=
  match lookupA b.invIndex tokenId with
  | none => b
  | some pl =>
    { b with
        invFiles :=
          insertA b.invFiles tokenId (((lookupA b.invFiles tokenId).getD []) ++ renderBatch pl)
        invIndex := insertA b.invIndex tokenId [] }

/-- One step of `IndexBuilder::update_inv_index`: push `(article_id, count)`
onto the token's buffer, spilling when the buffer reaches
`MAX_POSTINGS_LIST_SIZE`. -/
def updateInvIndexStep (articleId : ℕ) (b : Builder) (tc : ℕ × ℕ) : Builder :=
  let pl := ((lookupA b.invIndex tc.1).getD []) ++ [(articleId, tc.2)]
  let b1 := { b with invIndex := insertA b.invIndex tc.1 pl }
  if MAX_POSTINGS_LIST_SIZE ≤ pl.length then updateInvIndexFile b1 tc.1 else b1

def updateInvIndex (b : Builder) (articleId : ℕ) (wc : List (ℕ × ℕ)) : Builder :=
  wc.foldl (updateInvIndexStep articleId) b

/-- `IndexBuilder::build_index` (the per-article ingest). -/
def buildIndex (stem : Str → Str) (b : Builder) (a : ArticleR) : Builder :=
  let tokens := tokenize stem a.text
  let r := getTokenIds b tokens
  let b2 := updateInvIndex r.2 a.id (countWords r.1)
  { b2 with docLengths := insertA b2.docLengths a.id tokens.length }

def buildAll (stem : Str → Str) (arts : List ArticleR) : Builder :=
  arts.foldl (buildIndex stem) emptyBuilder

/-- `IndexBuilder::update_all_inv_index_files`: spill every buffered term. -/
def updateAllInvIndexFiles (b : Builder) : Builder :=
  (b.invIndex.map Prod.fst).foldl updateInvIndexFile b

/-! ## Filesystem model (for `IndexBuilder::new` and the lexicon writers)

A path is its list of components.  A file exists at a path; a directory
exists if it was created or if a file lives beneath it. -/

structure FS where
  files : List (List String × Str)
  dirs : List (List String)
deriving DecidableEq

def emptyFS : FS := ⟨[], []⟩

/-- Rust `Path::exists`: a file or directory is present at the path. -/
def pathExists (fs : FS) (p : List String) : Bool :=
  fs.dirs.any (fun d => p.isPrefixOf d) ||
  fs.files.any (fun f => p.isPrefixOf f.1)

/-- `std::fs::remove_dir_all`: drop everything at or below the path. -/
def removeDirAll (fs : FS) (p : List String) : FS :=
  { files := fs.files.filter (fun f => !(p.isPrefixOf f.1))
    dirs := fs.dirs.filter (fun d => !(p.isPrefixOf d)) }

/-- `std::fs::create_dir_all`: record the directory and its ancestors. -/
def createDirAll (fs : FS) (p : List String) : FS :=
  { fs with
      dirs := p :: ((List.range p.length).map (fun k => p.take (k + 1))) ++ fs.dirs }

/-- `IndexBuilder::new` (the filesystem part): delete any existing tree at
`index_path`, then create it fresh. -/
def indexBuilderNew (fs : FS) (p : List String) : FS :=
  createDirAll (if pathExists fs p then removeDirAll fs p else fs) p

/-- `IndexBuilder::write_lexicon`: serialize `id_to_token` with `serde_json`
(abstracted as `enc`) into `index_path/lexicon.json`. -/
def writeLexicon (enc : List (ℕ × Str) → Str) (b : Builder) (indexPath : List String)
    (fs : FS) : FS :=
  { fs with files := insertA fs.files (indexPath ++ ["lexicon.json"]) (enc b.idToToken) }

/-- `IndexBuilder::write_doc_lengths`: serialize `doc_lengths` with
`serde_json` (abstracted as `enc`) into `index_path/doc_lengths.json`. -/
def writeDocLengths (enc : List (ℕ × ℕ) → Str) (b : Builder) (indexPath : List String)
    (fs : FS) : FS :=
  { fs with files := insertA fs.files (indexPath ++ ["doc_lengths.json"]) (enc b.docLengths) }

/-- The load step of `query.rs::get_query_results`: open and deserialize
`article_lengths.bin` then `lexicon.bin` with `bincode` (abstracted as
`decLen`/`decLex`); a missing or unparsable file is an error. -/
def loadQueryMaps (decLen : Str → Option (List (ℕ × ℕ)))
    (decLex : Str → Option (List (ℕ × Str))) (fs : FS) (indexPath : List String) :
    Except Unit (List (ℕ × ℕ) × List (ℕ × Str)) :=
  match lookupA fs.files (indexPath ++ ["article_lengths.bin"]) with
  | none => .error ()
  | some c1 =>
    match decLen c1 with
    | none => .error ()
    | some lengths =>
      match lookupA fs.files (indexPath ++ ["lexicon.bin"]) with
      | none => .error ()
      | some c2 =>
        match decLex c2 with
        | none => .error ()
        | some lex => .ok (lengths, lex)

/-! ## The postings-file reader (`query.rs::read_postings_list_file`) -/

/-- `BufRead::read_line` iterated to end of file: each produced line keeps its
trailing `'\n'`; the final line has none if the file does not end with one. -/
def fileToLinesGo (cur : Str) : Str → List Str
  | [] => if cur.isEmpty then [] else [cur.reverse]
  | c :: cs =>
    if c = '\n' then (cur.reverse ++ ['\n']) :: fileToLinesGo [] cs
    else fileToLinesGo (c :: cur) cs

def fileToLines (s : Str) : List Str := fileToLinesGo [] s

/-- `str::split_whitespace`; `cur` carries the reversed word in progress. -/
def splitWsGo (cur : Str) : Str → List Str
  | [] => if cur.isEmpty then [] else [cur.reverse]
  | c :: cs =>
    if isWsChar c then
      if cur.isEmpty then splitWsGo [] cs else cur.reverse :: splitWsGo [] cs
    else splitWsGo (c :: cur) cs

def splitWs (s : Str) : List Str := splitWsGo [] s

/-- One loop iteration of `read_postings_list_file`: take the first two
whitespace-separated fields of the line and parse both as integers; anything
else (including a blank line) is an error. -/
def parseLine (line : Str) : Except Unit (ℕ × ℕ) :=
  match splitWs line with
  | a :: b :: _ =>
    match charsToNat a with
    | none => .error ()
    | some x =>
      match charsToNat b with
      | none => .error ()
      | some y => .ok (x, y)
  | _ => .error ()

def readLinesGo (m : List (ℕ × ℕ)) : List Str → Except Unit (List (ℕ × ℕ))
  | [] => .ok m
  | l :: ls =>
    match parseLine l with
    | .error _ => .error ()
    | .ok af => readLinesGo (insertA m af.1 af.2) ls

/-- `query.rs::read_postings_list_file` on a file's contents. -/
def readPostingsListFile (content : Str) : Except Unit (List (ℕ × ℕ)) :=
  readLinesGo [] (fileToLines content)

/-! ## The ingestion loop (`index_engine/index_engine.rs::parse_dump`)

Only the stream-driven state machine is modelled; the Postgres side of that
file is dead I/O for the claims at hand.  A `panicked` status models a Rust
panic (the `chars.parse::<u32>().unwrap()` on the id field), `errored` the
`Err` return on a malformed XML event, and `stopped` the `break` taken when
the completed article's id equals 10000. -/

inductive XmlEv where
  | startEl (name : String)
  | endEl (name : String)
  | chars (s : Str)
  | errEv
  | otherEv
deriving DecidableEq

inductive TagM where
  | title
  | idT
  | text
  | other
deriving DecidableEq

inductive DumpStatus where
  | running
  | stopped
  | errored
  | panicked
deriving DecidableEq

/-- `u32::MAX`, the unset-id sentinel of `Article::new`. -/
def U32_SENTINEL : ℕ := 4294967295

structure DumpArticle where
  id : ℕ
  title : Str
  text : Str
deriving DecidableEq

def freshDumpArticle : DumpArticle := ⟨U32_SENTINEL, [], []⟩

structure DumpState where
  curTag : TagM
  curArt : DumpArticle
  count : ℕ
  subs : List DumpArticle
  status : DumpStatus
deriving DecidableEq

def initDumpState : DumpState := ⟨.other, freshDumpArticle, 0, [], .running⟩

def tagOf (n : String) : TagM :=
  if n = "title" then .title
  else if n = "id" then .idT
  else if n = "text" then .text
  else .other

def stepDump (st : DumpState) (e : XmlEv) : DumpState :=
  match st.status with
  | .running =>
    match e with
    | .startEl n => { st with curTag := tagOf n }
    | .endEl n =>
      let st1 := { st with curTag := .other }
      if n = "page" then
        let st2 := { st1 with count := st1.count + 1, subs := st1.subs ++ [st1.curArt] }
        if st1.curArt.id = 10000 then { st2 with status := .stopped }
        else { st2 with curArt := freshDumpArticle }
      else st1
    | .chars s =>
      match st.curTag with
      | .title => { st with curArt := { st.curArt with title := s } }
      | .idT =>
        if st.curArt.id = U32_SENTINEL then
          match charsToNat s with
          | some n =>
            if n < 4294967296 then { st with curArt := { st.curArt with id := n } }
            else { st with status := .panicked }
          | none => { st with status := .panicked }
        else st
      | .text => { st with curArt := { st.curArt with text := s } }
      | .other => st
    | .errEv => { st with status := .errored }
    | .otherEv => st
  | _ => st

def parseDump (events : List XmlEv) : DumpState := events.foldl stepDump initDumpState

/-! ## The query evaluator (`query.rs`)

The persisted maps are handed to the evaluator directly (`IndexData`):
per the spec's binary-map contract, write and read use the same scheme, so
the round-trip of `lexicon.bin` / `article_lengths.bin` is modelled as the
identity (the broken file-level round-trip of the source is treated
separately).  `articles` is the article store.  Modelled from the spec:
the article-store `put`/`get` under
`articles/<id/1000>/article_<id>.json` is absent from `src/` (only the
query-side `get_article` reads it), so the store is modelled as a map from
article id to the stored article, per spec §4.2. -/

structure IndexData where
  articleLengths : List (ℕ × ℕ)
  lexicon : List (ℕ × Str)
  invFiles : List (ℕ × Str)
  articles : List (ℕ × ArticleR)

/-- Bridge from a finalized builder to the evaluator's view of the index. -/
def dataOfBuilder (b : Builder) (store : List (ℕ × ArticleR)) : IndexData :=
  ⟨b.docLengths, b.idToToken, b.invFiles, store⟩

def K1 : ℝ := 1.2
def B : ℝ := 0.75
def K2 : ℝ := 100.0
def SNIPPET_OFFSET : ℕ := 50

/-- `query.rs::get_postings_lists`: open and parse the postings file of every
query token id; a missing file is a hard error. -/
def getPostingsListsGo (d : IndexData) (acc : List (ℕ × List (ℕ × ℕ))) :
    List ℕ → Except Unit (List (ℕ × List (ℕ × ℕ)))
  | [] => .ok acc
  | t :: ts =>
    match lookupA d.invFiles t with
    | none => .error ()
    | some content =>
      match readPostingsListFile content with
      | .error _ => .error ()
      | .ok pl => getPostingsListsGo d (insertA acc t pl) ts

def getPostingsLists (d : IndexData) (qIds : List ℕ) :
    Except Unit (List (ℕ × List (ℕ × ℕ))) :=
  getPostingsListsGo d [] qIds

/-- The loop body of `query.rs::calculate_bm25`, accumulating `score`. -/
noncomputable def bm25Go (articleId articleLength : ℕ) (avgdl : ℝ) (nArticles : ℕ)
    (plists : List (ℕ × List (ℕ × ℕ))) (score : ℝ) :
    List (ℕ × ℕ) → Except Unit ℝ
  | [] => .ok score
  | (t, qf) :: rest =>
    match lookupA plists t with
    | none => .error ()
    | some pl =>
      match lookupA pl articleId with
      | none => bm25Go articleId articleLength avgdl nArticles plists score rest
      | some fr =>
        let k := K1 * ((1 - B) + B * (articleLength : ℝ) / avgdl)
        let tf := (K1 + 1) * (fr : ℝ) / (k + (fr : ℝ))
        let qfc := (K2 + 1) * (qf : ℝ) / (K2 + (qf : ℝ))
        let idf := Real.log
          (((nArticles : ℝ) - (pl.length : ℝ) + 0.5) / ((pl.length : ℝ) + 0.5) + 1)
        bm25Go articleId articleLength avgdl nArticles plists
          (score + tf * qfc * idf) rest

/-- `query.rs::calculate_bm25`. -/
noncomputable def calculateBM25 (articleId articleLength : ℕ)
    (queryTokenFreqs : List (ℕ × ℕ)) (avgdl : ℝ) (nArticles : ℕ)
    (plists : List (ℕ × List (ℕ × ℕ))) : Except Unit ℝ :=
  bm25Go articleId articleLength avgdl nArticles plists 0 queryTokenFreqs

/-- Ascending insertion by key: builds the `BTreeMap` iteration order. -/
def insertByKey (x : ℕ × ℕ) : List (ℕ × ℕ) → List (ℕ × ℕ)
  | [] => [x]
  | y :: ys => if x.1 ≤ y.1 then x :: y :: ys else y :: insertByKey x ys

def sortKeysAsc (m : List (ℕ × ℕ)) : List (ℕ × ℕ) := m.foldr insertByKey []

/-- The `query_token_freqs` `BTreeMap`: token-id multiset of the query, in
ascending key order. -/
def btreeOfIds (ids : List ℕ) : List (ℕ × ℕ) :=
  sortKeysAsc (ids.foldl (fun m id => upsertA m id 0 (fun c => c + 1)) [])

/-- Stable descending-by-score insertion: the model of Rust's stable
`sort_by(|a, b| b.1.partial_cmp(&a.1).unwrap_or(Equal))` for NaN-free scores. -/
noncomputable def insertScoreDesc (x : ℕ × ℝ) : List (ℕ × ℝ) → List (ℕ × ℝ)
  | [] => [x]
  | y :: ys => if y.2 ≤ x.2 then x :: y :: ys else y :: insertScoreDesc x ys

noncomputable def sortScoresDesc : List (ℕ × ℝ) → List (ℕ × ℝ)
  | [] => []
  | x :: xs => insertScoreDesc x (sortScoresDesc xs)

def replaceNl (s : Str) : Str := s.map (fun c => if c = '\n' then ' ' else c)

/-- The token loop of `query.rs::get_article_snippet` over the query ids in
descending order. -/
def snippetGo (cleaned : Str) (posMap : List (Str × List ℕ)) (lex : List (ℕ × Str)) :
    List (ℕ × ℕ) → Except Unit Str
  | [] => .error ()
  | (tid, _) :: rest =>
    match lookupA lex tid with
    | none => snippetGo cleaned posMap lex rest
    | some tok =>
      match lookupA posMap tok with
      | none => snippetGo cleaned posMap lex rest
      | some ps =>
        match ps.head? with
        | none => snippetGo cleaned posMap lex rest
        | some p =>
          let start := if SNIPPET_OFFSET < p then p - SNIPPET_OFFSET else 0
          let stop := if cleaned.length < p + SNIPPET_OFFSET then cleaned.length
                      else p + SNIPPET_OFFSET
          .ok (replaceNl (str "..." ++ (cleaned.drop start).take (stop - start) ++ str "..."))

/-- `query.rs::get_article_snippet`: strip non-ASCII (no lowercasing), build
the position map, and scan query token ids in descending order
(`query_token_freqs.iter().rev()` over the ascending `BTreeMap`). -/
def getArticleSnippet (stem : Str → Str) (articleText : Str)
    (queryTokenFreqs : List (ℕ × ℕ)) (lex : List (ℕ × Str)) : Except Unit Str :=
  let cleaned := articleText.filter isAsciiChar
  snippetGo cleaned (tokenizeWithPositions stem cleaned) lex queryTokenFreqs.reverse

structure QResult where
  articleId : ℕ
  title : Str
  snippet : Str
  score : ℝ

/-- The outcome of `get_query_results`; `panicked` models a Rust panic, which
is distinct from the `Err` return (`failed`). -/
inductive QueryOutcome where
  | panicked
  | failed
  | ok (results : List QResult)

/-- The top-k result loop of `get_query_results`: a missing stored article or
a failed snippet drops that result. -/
def collectResults (stem : Str → Str) (d : IndexData) (lex : List (ℕ × Str))
    (qFreqs : List (ℕ × ℕ)) : List (ℕ × ℝ) → List QResult
  | [] => []
  | (aid, s) :: rest =>
    match lookupA d.articles aid with
    | none => collectResults stem d lex qFreqs rest
    | some art =>
      match getArticleSnippet stem art.text qFreqs lex with
      | .error _ => collectResults stem d lex qFreqs rest
      | .ok snip => ⟨aid, art.title, snip, s⟩ :: collectResults stem d lex qFreqs rest

/-- `query.rs::get_query_results`.  The slice `&scores[..num_max_results]`
panics when `num_max_results` exceeds the number of scored articles; that is
the `panicked` branch. -/
noncomputable def getQueryResults (stem : Str → Str) (numMaxResults : ℕ)
    (d : IndexData) (query : Str) : QueryOutcome :=
  let lex := d.lexicon
  let revLex := lex.foldl (fun m e => insertA m e.2 e.1) []
  let qIds := (tokenize stem query).foldl
    (fun acc tok =>
      match lookupA revLex tok with
      | some id => acc ++ [id]
      | none => acc) []
  let qFreqs := btreeOfIds qIds
  match getPostingsLists d qIds with
  | .error _ => .failed
  | .ok plists =>
    let lengths := d.articleLengths
    let avgdl := (((lengths.map Prod.snd).sum : ℕ) : ℝ) / ((lengths.length : ℕ) : ℝ)
    let nArticles := lengths.length
    let scores := lengths.foldl
      (fun acc e =>
        match calculateBM25 e.1 e.2 qFreqs avgdl nArticles plists with
        | .ok s => acc ++ [(e.1, s)]
        | .error _ => acc) []
    let sorted := sortScoresDesc scores
    if numMaxResults ≤ sorted.length then
      .ok (collectResults stem d lex qFreqs (sorted.take numMaxResults))
    else .panicked

instance {ε α : Type} [DecidableEq ε] [DecidableEq α] : DecidableEq (Except ε α) :=
  fun a b =>
    match a, b with
    | .error x, .error y =>
      if h : x = y then .isTrue (by simp [h]) else .isFalse (by simp [h])
    | .error _, .ok _ => .isFalse (by simp)
    | .ok _, .error _ => .isFalse (by simp)
    | .ok x, .ok y =>
      if h : x = y then .isTrue (by simp [h]) else .isFalse (by simp [h])

theorem isPrefixOf_true_iff : ∀ (l1 l2 : List String), l1.isPrefixOf l2 = true ↔ l1 <+: l2 := by
  intro l1
  induction l1 with
  | nil => intro l2; simp [List.isPrefixOf]
  | cons a as ih =>
    intro l2
    cases l2 with
    | nil => simp [List.isPrefixOf]
    | cons b bs =>
      simp [List.isPrefixOf, ih, List.cons_prefix_cons, beq_iff_eq]

/-! ## Claim C10: `IndexBuilder::new` resets the index directory -/

/-- **C10.** Constructing a new `IndexBuilder` for an `index_path` deletes any
existing tree at that path and recreates it: afterwards the directory exists,
no file lies at or below it, and no directory lies strictly below it. -/
theorem indexBuilderNew_resets_directory (fs : FS) (p : List String) :
    p ∈ (indexBuilderNew fs p).dirs ∧
    (∀ f ∈ (indexBuilderNew fs p).files, ¬ p <+: f.1) ∧
    (∀ d ∈ (indexBuilderNew fs p).dirs, p <+: d → d = p) := by
  have hanc : ∀ d, d ∈ (List.range p.length).map (fun k => p.take (k + 1)) →
      p <+: d → d = p := by
    intro d hd hpd
    rcases List.mem_map.mp hd with ⟨k, hk, rfl⟩
    have hk' : k < p.length := List.mem_range.mp hk
    have hlen : (p.take (k + 1)).length = k + 1 := by
      simp [List.length_take]
      omega
    have h1 : p.length ≤ (p.take (k + 1)).length := hpd.length_le
    exact (List.IsPrefix.eq_of_length hpd (by omega)).symm
  have hfiles : ∀ f ∈ (if pathExists fs p then removeDirAll fs p else fs).files,
      ¬ p <+: f.1 := by
    by_cases hex : pathExists fs p
    · intro f hf
      simp only [hex, if_true, removeDirAll, List.mem_filter] at hf
      intro hpre
      have := hf.2
      rw [Bool.not_eq_true'] at this
      exact absurd ((isPrefixOf_true_iff _ _).mpr hpre) (by simp [this])
    · intro f hf
      simp only [hex, if_false] at hf
      have : fs.files.any (fun f => p.isPrefixOf f.1) = false := by
        simp only [pathExists, Bool.or_eq_true] at hex
        push_neg at hex
        simp only [Bool.not_eq_true] at hex
        exact hex.2
      rw [List.any_eq_false] at this
      intro hpre
      exact absurd ((isPrefixOf_true_iff _ _).mpr hpre) (by simp [this f hf])
  have hdirs : ∀ d ∈ (if pathExists fs p then removeDirAll fs p else fs).dirs,
      ¬ p <+: d := by
    by_cases hex : pathExists fs p
    · intro d hd
      simp only [hex, if_true, removeDirAll, List.mem_filter] at hd
      intro hpre
      have := hd.2
      rw [Bool.not_eq_true'] at this
      exact absurd ((isPrefixOf_true_iff _ _).mpr hpre) (by simp [this])
    · intro d hd
      simp only [hex, if_false] at hd
      have : fs.dirs.any (fun d => p.isPrefixOf d) = false := by
        simp only [pathExists, Bool.or_eq_true] at hex
        push_neg at hex
        simp only [Bool.not_eq_true] at hex
        exact hex.1
      rw [List.any_eq_false] at this
      intro hpre
      exact absurd ((isPrefixOf_true_iff _ _).mpr hpre) (by simp [this d hd])
  refine ⟨?_, ?_, ?_⟩
  · simp [indexBuilderNew, createDirAll]
  · intro f hf
    exact hfiles f hf
  · intro d hd hpd
    simp only [indexBuilderNew, createDirAll, List.mem_cons, List.mem_append] at hd
    rcases hd with (rfl | hd) | hd
    · rfl
    · exact hanc d hd hpd
    · exact absurd hpd (hdirs d hd)

/-! ## Claim C1: the persisted-map round-trip is broken

`IndexBuilder::write_lexicon` serializes the lexicon as JSON into
`index_path/lexicon.json` and `write_doc_lengths` the lengths into
`index_path/doc_lengths.json`, while `get_query_results` deserializes
`index_path/article_lengths.bin` and `index_path/lexicon.bin` with `bincode`.
A freshly built index therefore has no `lexicon.bin` or
`article_lengths.bin`, and the query-side load fails, for every choice of
builder state and of serializers. -/

/-- **C1.** After `IndexBuilder::new` plus the builder's two map writers, the
files on disk are `lexicon.json` and `doc_lengths.json`; the paths the query
evaluator reads (`lexicon.bin`, `article_lengths.bin`) are absent and its
load step returns an error, so the write/read round-trip claimed by the spec
fails for every lexicon and article-length table. -/
theorem lexicon_write_read_mismatch
    (b : Builder) (encL : List (ℕ × Str) → Str) (encD : List (ℕ × ℕ) → Str)
    (decLen : Str → Option (List (ℕ × ℕ))) (decLex : Str → Option (List (ℕ × Str))) :
    lookupA (writeDocLengths encD b ["idx"]
        (writeLexicon encL b ["idx"] (indexBuilderNew emptyFS ["idx"]))).files
        ["idx", "lexicon.json"] = some (encL b.idToToken) ∧
    lookupA (writeDocLengths encD b ["idx"]
        (writeLexicon encL b ["idx"] (indexBuilderNew emptyFS ["idx"]))).files
        ["idx", "doc_lengths.json"] = some (encD b.docLengths) ∧
    lookupA (writeDocLengths encD b ["idx"]
        (writeLexicon encL b ["idx"] (indexBuilderNew emptyFS ["idx"]))).files
        ["idx", "lexicon.bin"] = none ∧
    lookupA (writeDocLengths encD b ["idx"]
        (writeLexicon encL b ["idx"] (indexBuilderNew emptyFS ["idx"]))).files
        ["idx", "article_lengths.bin"] = none ∧
    loadQueryMaps decLen decLex
      (writeDocLengths encD b ["idx"]
        (writeLexicon encL b ["idx"] (indexBuilderNew emptyFS ["idx"]))) ["idx"] =
      .error () := by
  have h1 : ("doc_lengths.json" : String) ≠ "lexicon.json" := by decide
  have h2 : ("lexicon.bin" : String) ≠ "lexicon.json" := by decide
  have h3 : ("lexicon.bin" : String) ≠ "doc_lengths.json" := by decide
  have h4 : ("article_lengths.bin" : String) ≠ "lexicon.json" := by decide
  have h5 : ("article_lengths.bin" : String) ≠ "doc_lengths.json" := by decide
  simp [writeDocLengths, writeLexicon, indexBuilderNew, pathExists, emptyFS,
    createDirAll, insertA, lookupA, loadQueryMaps, h1, h2, h3, h4, h5]

/-! ## The demo article and its built index -/

def artAlpha : ArticleR := ⟨1, str "Alpha", str "Hello hello world"⟩

/-- The builder state after ingesting `artAlpha` and spilling every buffer. -/
def builderAlpha : Builder :=
  ⟨2, [(0, str "hello"), (1, str "world")], [(str "hello", 0), (str "world", 1)],
   [(0, []), (1, [])], [(1, 3)], [(0, str "1 2\n"), (1, str "1 1\n")]⟩

/-- The evaluator's view of the index built from `artAlpha` alone. -/
def dataDemo : IndexData := dataOfBuilder builderAlpha [(1, artAlpha)]

theorem tokenize_alpha (stem : Str → Str) (h1 : stem (str "hello") = str "hello")
    (h2 : stem (str "world") = str "world") :
    tokenize stem (str "Hello hello world") = [str "hello", str "hello", str "world"] := by
  have hruns : runsOf (cleanLower (str "Hello hello world")) =
      [(str "hello", 0), (str "hello", 6), (str "world", 12)] := by decide
  simp [tokenize, hruns, h1, h2]

/-- Building the index from `artAlpha` and spilling all buffers yields
`builderAlpha`, for every stemmer that fixes the two words involved (as the
English stemmer does). -/
theorem buildAlpha_eq (stem : Str → Str) (h1 : stem (str "hello") = str "hello")
    (h2 : stem (str "world") = str "world") :
    updateAllInvIndexFiles (buildIndex stem emptyBuilder artAlpha) = builderAlpha := by
  have ht : tokenize stem artAlpha.text = [str "hello", str "hello", str "world"] := by
    rw [show artAlpha.text = str "Hello hello world" from rfl]
    exact tokenize_alpha stem h1 h2
  unfold buildIndex
  rw [ht]
  rfl

/-! ## Claim C2: the query evaluator panics on data-dependent input

With one indexed article and the default `num_max_results = 10`, the slice
`&scores[..num_max_results]` in `get_query_results` is out of bounds — even
for a query with no known token — and `chars.parse::<u32>().unwrap()` in
`parse_dump` panics on a corrupted id field. -/

/-- **C2.** At the concrete failing inputs, the query evaluator panics
(instead of returning `Ok(vec![])`) and the ingestion loop panics on a
non-numeric id (instead of surfacing an error). -/
theorem query_eval_panics_on_data :
    getQueryResults (fun t => t) 10 dataDemo (str "nonexistent") = .panicked ∧
    (parseDump [.startEl "id", .chars (str "abc")]).status = .panicked :=
  ⟨rfl, rfl⟩

/-! ## Claim C4: the single-article build and article-length correctness -/

theorem updateInvIndexFile_docLengths (b : Builder) (t : ℕ) :
    (updateInvIndexFile b t).docLengths = b.docLengths := by
  unfold updateInvIndexFile
  cases lookupA b.invIndex t <;> rfl

theorem updateInvIndexStep_docLengths (aid : ℕ) (b : Builder) (tc : ℕ × ℕ) :
    (updateInvIndexStep aid b tc).docLengths = b.docLengths := by
  unfold updateInvIndexStep
  dsimp only
  split
  · rw [updateInvIndexFile_docLengths]
  · rfl

theorem updateInvIndex_docLengths (aid : ℕ) (wc : List (ℕ × ℕ)) :
    ∀ b : Builder, (updateInvIndex b aid wc).docLengths = b.docLengths := by
  induction wc with
  | nil => intro b; rfl
  | cons x xs ih =>
    intro b
    have h : updateInvIndex b aid (x :: xs) =
        updateInvIndex (updateInvIndexStep aid b x) aid xs := rfl
    rw [h, ih, updateInvIndexStep_docLengths]

theorem getTokenId_docLengths (b : Builder) (tok : Str) :
    (getTokenId b tok).2.docLengths = b.docLengths := by
  unfold getTokenId
  cases lookupA b.tokenToId tok <;> rfl

theorem getTokenIds_docLengths (ts : List Str) :
    ∀ b : Builder, (getTokenIds b ts).2.docLengths = b.docLengths := by
  induction ts with
  | nil => intro b; rfl
  | cons t ts ih =>
    intro b
    show (getTokenIds (getTokenId b t).2 ts).2.docLengths = _
    rw [ih, getTokenId_docLengths]

theorem buildIndex_docLengths (stem : Str → Str) (b : Builder) (a : ArticleR) :
    (buildIndex stem b a).docLengths =
      insertA b.docLengths a.id (tokenize stem a.text).length := by
  unfold buildIndex
  dsimp only
  rw [updateInvIndex_docLengths, getTokenIds_docLengths]

theorem buildFold_docLengths_untouched (stem : Str → Str) (arts : List ArticleR) :
    ∀ (b : Builder) (i : ℕ), i ∉ arts.map ArticleR.id →
      lookupA (arts.foldl (buildIndex stem) b).docLengths i = lookupA b.docLengths i := by
  induction arts with
  | nil => intro b i _; rfl
  | cons a rest ih =>
    intro b i h
    simp only [List.map_cons, List.mem_cons] at h
    push_neg at h
    have hfold : (a :: rest).foldl (buildIndex stem) b =
        rest.foldl (buildIndex stem) (buildIndex stem b a) := rfl
    rw [hfold, ih _ _ h.2, buildIndex_docLengths, lookupA_insertA]
    simp [h.1]

theorem buildFold_docLengths (stem : Str → Str) (arts : List ArticleR) :
    (arts.map ArticleR.id).Nodup →
    ∀ (b : Builder), ∀ a ∈ arts,
      lookupA (arts.foldl (buildIndex stem) b).docLengths a.id =
        some (tokenize stem a.text).length := by
  induction arts with
  | nil => intro _ b a ha; simp at ha
  | cons x rest ih =>
    intro hnd b a ha
    simp only [List.map_cons, List.nodup_cons] at hnd
    have hfold : (x :: rest).foldl (buildIndex stem) b =
        rest.foldl (buildIndex stem) (buildIndex stem b x) := rfl
    rcases List.mem_cons.mp ha with rfl | hmem
    · rw [hfold, buildFold_docLengths_untouched stem rest _ _ hnd.1,
        buildIndex_docLengths, lookupA_insertA]
      simp
    · rw [hfold]
      exact ih hnd.2 (buildIndex stem b x) a hmem

/-- **C4.** Building from `{id:1, title:"Alpha", text:"Hello hello world"}`
and finalizing yields lexicon `{0:"hello", 1:"world"}`, article lengths
`{1:3}`, postings file `0.txt` = `"1 2\n"` and `1.txt` = `"1 1\n"`; and in
general, after building any article sequence with distinct ids, the recorded
length of each article is the length of the analyzer's token sequence for its
text. -/
theorem single_article_build_and_lengths (stem : Str → Str)
    (h1 : stem (str "hello") = str "hello") (h2 : stem (str "world") = str "world") :
    (updateAllInvIndexFiles (buildIndex stem emptyBuilder artAlpha)).idToToken =
      [(0, str "hello"), (1, str "world")] ∧
    (updateAllInvIndexFiles (buildIndex stem emptyBuilder artAlpha)).curTokenId = 2 ∧
    (updateAllInvIndexFiles (buildIndex stem emptyBuilder artAlpha)).docLengths = [(1, 3)] ∧
    lookupA (updateAllInvIndexFiles (buildIndex stem emptyBuilder artAlpha)).invFiles 0 =
      some (str "1 2\n") ∧
    lookupA (updateAllInvIndexFiles (buildIndex stem emptyBuilder artAlpha)).invFiles 1 =
      some (str "1 1\n") ∧
    (∀ (stem2 : Str → Str) (arts : List ArticleR), (arts.map ArticleR.id).Nodup →
      ∀ a ∈ arts, lookupA (buildAll stem2 arts).docLengths a.id =
        some (tokenize stem2 a.text).length) := by
  have hb := buildAlpha_eq stem h1 h2
  refine ⟨by rw [hb]; rfl, by rw [hb]; rfl, by rw [hb]; rfl, by rw [hb]; rfl,
    by rw [hb]; rfl, ?_⟩
  intro stem2 arts hnd a ha
  exact buildFold_docLengths stem2 arts hnd emptyBuilder a ha

/-- Closed witness for C4 at the identity stemmer (the English stemmer fixes
both words of the article). -/
theorem single_article_build_and_lengths_witness :
    ((fun t : Str => t) (str "hello") = str "hello") ∧
    ((fun t : Str => t) (str "world") = str "world") ∧
    ((updateAllInvIndexFiles (buildIndex (fun t : Str => t) emptyBuilder artAlpha)).idToToken =
        [(0, str "hello"), (1, str "world")] ∧
      (updateAllInvIndexFiles (buildIndex (fun t : Str => t) emptyBuilder artAlpha)).curTokenId = 2 ∧
      (updateAllInvIndexFiles (buildIndex (fun t : Str => t) emptyBuilder artAlpha)).docLengths = [(1, 3)] ∧
      lookupA (updateAllInvIndexFiles (buildIndex (fun t : Str => t) emptyBuilder artAlpha)).invFiles 0 =
        some (str "1 2\n") ∧
      lookupA (updateAllInvIndexFiles (buildIndex (fun t : Str => t) emptyBuilder artAlpha)).invFiles 1 =
        some (str "1 1\n") ∧
      (∀ (stem2 : Str → Str) (arts : List ArticleR), (arts.map ArticleR.id).Nodup →
        ∀ a ∈ arts, lookupA (buildAll stem2 arts).docLengths a.id =
          some (tokenize stem2 a.text).length)) :=
  ⟨rfl, rfl, single_article_build_and_lengths (fun t => t) rfl rfl⟩

/-! ## Claim C8: the end-to-end "world" query

Stem-congruence lemmas: the evaluator applies the stemmer only to the
alphanumeric runs of the query and of the stored article texts, so two
stemmers agreeing there produce identical results. -/

theorem lookupA_mem {K V : Type} [DecidableEq K] :
    ∀ (m : List (K × V)) (k : K) (v : V), lookupA m k = some v → (k, v) ∈ m := by
  intro m
  induction m with
  | nil => intro k v h; simp [lookupA] at h
  | cons e rest ih =>
    intro k v h
    rcases e with ⟨ek, ev⟩
    by_cases hk : k = ek
    · subst hk
      simp [lookupA] at h
      simp [h]
    · simp [lookupA, hk] at h
      exact List.mem_cons_of_mem _ (ih k v h)

theorem tokenize_congr (stem stem' : Str → Str) (t : Str)
    (h : ∀ r ∈ runsOf (cleanLower t), stem r.1 = stem' r.1) :
    tokenize stem t = tokenize stem' t := by
  unfold tokenize
  exact List.map_congr_left h

theorem foldl_upsert_congr (f f' : Str → Str) :
    ∀ (l : List (Str × ℕ)) (m : List (Str × List ℕ)), (∀ r ∈ l, f r.1 = f' r.1) →
      l.foldl (fun m r => upsertA m (f r.1) [] (fun ps => ps ++ [r.2])) m =
      l.foldl (fun m r => upsertA m (f' r.1) [] (fun ps => ps ++ [r.2])) m := by
  intro l
  induction l with
  | nil => intro m _; rfl
  | cons x xs ih =>
    intro m h
    simp only [List.foldl_cons]
    rw [h x (List.mem_cons_self x xs)]
    exact ih _ (fun r hr => h r (List.mem_cons_of_mem x hr))

theorem tokenizeWithPositions_congr (stem stem' : Str → Str) (t : Str)
    (h : ∀ r ∈ runsOf (cleanLower t), stem r.1 = stem' r.1) :
    tokenizeWithPositions stem t = tokenizeWithPositions stem' t := by
  unfold tokenizeWithPositions
  exact foldl_upsert_congr stem stem' _ [] h

theorem getArticleSnippet_congr (stem stem' : Str → Str) (text : Str)
    (q : List (ℕ × ℕ)) (lex : List (ℕ × Str))
    (h : ∀ r ∈ runsOf (cleanLower (text.filter isAsciiChar)), stem r.1 = stem' r.1) :
    getArticleSnippet stem text q lex = getArticleSnippet stem' text q lex := by
  simp only [getArticleSnippet]
  rw [tokenizeWithPositions_congr stem stem' _ h]

theorem collectResults_congr (stem stem' : Str → Str) (d : IndexData)
    (lex : List (ℕ × Str)) (q : List (ℕ × ℕ))
    (hart : ∀ e ∈ d.articles,
      ∀ r ∈ runsOf (cleanLower (e.2.text.filter isAsciiChar)), stem r.1 = stem' r.1) :
    ∀ l, collectResults stem d lex q l = collectResults stem' d lex q l := by
  intro l
  induction l with
  | nil => rfl
  | cons x xs ih =>
    rcases x with ⟨aid, s⟩
    simp only [collectResults]
    cases hl : lookupA d.articles aid with
    | none => exact ih
    | some art =>
      have hmem := lookupA_mem d.articles aid art hl
      dsimp only
      rw [getArticleSnippet_congr stem stem' art.text q lex (hart (aid, art) hmem)]
      cases getArticleSnippet stem' art.text q lex with
      | error e => exact ih
      | ok snip => rw [ih]

theorem getQueryResults_congr (stem stem' : Str → Str) (k : ℕ) (d : IndexData)
    (query : Str)
    (hq : ∀ r ∈ runsOf (cleanLower query), stem r.1 = stem' r.1)
    (hart : ∀ e ∈ d.articles,
      ∀ r ∈ runsOf (cleanLower (e.2.text.filter isAsciiChar)), stem r.1 = stem' r.1) :
    getQueryResults stem k d query = getQueryResults stem' k d query := by
  unfold getQueryResults
  rw [tokenize_congr stem stem' query hq]
  simp only [collectResults_congr stem stem' d _ _ hart]

/-- The BM25 score of the single demo article for the query `"world"`:
`N = 1`, `n_t = 1`, `f = 1`, `qf = 1`, `|d| = 3`, `avgdl = 3`. -/
noncomputable def scoreDemo : ℝ :=
  0 + (K1 + 1) * ((1 : ℕ) : ℝ) /
      (K1 * ((1 - B) + B * ((3 : ℕ) : ℝ) / (((3 : ℕ) : ℝ) / ((1 : ℕ) : ℝ))) + ((1 : ℕ) : ℝ)) *
    ((K2 + 1) * ((1 : ℕ) : ℝ) / (K2 + ((1 : ℕ) : ℝ))) *
    Real.log ((((1 : ℕ) : ℝ) - ((1 : ℕ) : ℝ) + 0.5) / (((1 : ℕ) : ℝ) + 0.5) + 1)

theorem scoreDemo_pos : 0 < scoreDemo := by
  have hlog : 0 < Real.log ((((1 : ℕ) : ℝ) - ((1 : ℕ) : ℝ) + 0.5) / (((1 : ℕ) : ℝ) + 0.5) + 1) := by
    apply Real.log_pos
    norm_num
  have htf : (0 : ℝ) < (K1 + 1) * ((1 : ℕ) : ℝ) /
      (K1 * ((1 - B) + B * ((3 : ℕ) : ℝ) / (((3 : ℕ) : ℝ) / ((1 : ℕ) : ℝ))) + ((1 : ℕ) : ℝ)) := by
    norm_num [K1, B]
  have hqf : (0 : ℝ) < (K2 + 1) * ((1 : ℕ) : ℝ) / (K2 + ((1 : ℕ) : ℝ)) := by
    norm_num [K2]
  unfold scoreDemo
  rw [zero_add]
  exact mul_pos (mul_pos htf hqf) hlog

theorem query_world_value :
    getQueryResults (fun t : Str => t) 1 dataDemo (str "world") =
      .ok [⟨1, str "Alpha", str "...Hello hello world...", scoreDemo⟩] := rfl

/-- **C8 counterexample.** Querying `"world"` on the index built from the
single demo article (with `num_max_results = 1`) returns one result for
article 1, but its snippet is `"...Hello hello world..."` — the original
casing — not the `"...hello hello world..."` the claim states. -/
theorem query_world_snippet_counterexample :
    (∃ s : ℝ,
      getQueryResults (fun t : Str => t) 1
        (dataOfBuilder
          (updateAllInvIndexFiles (buildIndex (fun t : Str => t) emptyBuilder artAlpha))
          [(1, artAlpha)]) (str "world") =
        .ok [⟨1, str "Alpha", str "...Hello hello world...", s⟩]) ∧
    str "...Hello hello world..." ≠ str "...hello hello world..." :=
  ⟨⟨scoreDemo, query_world_value⟩, by decide⟩

/-- **C8 amended.** For every stemmer fixing `"hello"` and `"world"` (as the
English stemmer does), querying `"world"` over the index built from the demo
article with `num_max_results = 1` returns exactly one result: article 1,
strictly positive score, and snippet `"...Hello hello world..."` (the
non-lowercased cleaned text). -/
theorem query_world_amended (stem : Str → Str)
    (h1 : stem (str "hello") = str "hello") (h2 : stem (str "world") = str "world") :
    ∃ s : ℝ, 0 < s ∧
      getQueryResults stem 1
        (dataOfBuilder (updateAllInvIndexFiles (buildIndex stem emptyBuilder artAlpha))
          [(1, artAlpha)]) (str "world") =
        .ok [⟨1, str "Alpha", str "...Hello hello world...", s⟩] := by
  refine ⟨scoreDemo, scoreDemo_pos, ?_⟩
  rw [buildAlpha_eq stem h1 h2]
  have hq : ∀ r ∈ runsOf (cleanLower (str "world")), stem r.1 = (fun t : Str => t) r.1 := by
    intro r hr
    have e : runsOf (cleanLower (str "world")) = [(str "world", 0)] := by decide
    rw [e] at hr
    have : r = (str "world", 0) := by simpa using hr
    rw [this]
    simpa using h2
  have hart : ∀ e ∈ dataDemo.articles,
      ∀ r ∈ runsOf (cleanLower (e.2.text.filter isAsciiChar)),
        stem r.1 = (fun t : Str => t) r.1 := by
    intro e he r hr
    have he' : e = (1, artAlpha) := by simpa [dataDemo, dataOfBuilder] using he
    rw [he'] at hr
    have eruns : runsOf (cleanLower (artAlpha.text.filter isAsciiChar)) =
        [(str "hello", 0), (str "hello", 6), (str "world", 12)] := by decide
    rw [show ((1, artAlpha) : ℕ × ArticleR).2.text = artAlpha.text from rfl] at hr
    rw [eruns] at hr
    simp only [List.mem_cons, List.not_mem_nil, or_false] at hr
    rcases hr with rfl | rfl | rfl
    · simpa using h1
    · simpa using h1
    · simpa using h2
  have hcong := getQueryResults_congr stem (fun t : Str => t) 1 dataDemo (str "world") hq hart
  show getQueryResults stem 1 dataDemo (str "world") = _
  rw [hcong]
  exact query_world_value

/-- Closed witness for the amended C8 at the identity stemmer. -/
theorem query_world_amended_witness :
    ((fun t : Str => t) (str "hello") = str "hello") ∧
    ((fun t : Str => t) (str "world") = str "world") ∧
    (∃ s : ℝ, 0 < s ∧
      getQueryResults (fun t : Str => t) 1
        (dataOfBuilder
          (updateAllInvIndexFiles (buildIndex (fun t : Str => t) emptyBuilder artAlpha))
          [(1, artAlpha)]) (str "world") =
        .ok [⟨1, str "Alpha", str "...Hello hello world...", s⟩]) :=
  ⟨rfl, rfl, query_world_amended (fun t => t) rfl rfl⟩

/-! ## Claim C5: BM25 matches the spec formula -/

/-- The spec's BM25 formula, written as a sum over the distinct query terms:
`Σ_t tf_component · qf_component · idf` with `f` read off as 0 when absent. -/
noncomputable def specBM25 (articleId articleLength : ℕ) (qfreqs : List (ℕ × ℕ))
    (avgdl : ℝ) (nArticles : ℕ) (plists : List (ℕ × List (ℕ × ℕ))) : ℝ :=
  (qfreqs.map (fun e =>
    let pl := (lookupA plists e.1).getD []
    let f : ℝ := (((lookupA pl articleId).getD 0 : ℕ) : ℝ)
    let k := K1 * ((1 - B) + B * (articleLength : ℝ) / avgdl)
    let tf := (K1 + 1) * f / (k + f)
    let qfc := (K2 + 1) * (e.2 : ℝ) / (K2 + (e.2 : ℝ))
    let idf := Real.log
      (((nArticles : ℝ) - (pl.length : ℝ) + 0.5) / ((pl.length : ℝ) + 0.5) + 1)
    tf * qfc * idf)).sum

theorem bm25Go_spec (articleId articleLength : ℕ) (avgdl : ℝ) (nArticles : ℕ)
    (plists : List (ℕ × List (ℕ × ℕ))) :
    ∀ (l : List (ℕ × ℕ)) (score : ℝ), (∀ e ∈ l, (lookupA plists e.1).isSome) →
      bm25Go articleId articleLength avgdl nArticles plists score l =
        .ok (score + specBM25 articleId articleLength l avgdl nArticles plists) := by
  intro l
  induction l with
  | nil => intro score _; simp [bm25Go, specBM25]
  | cons x rest ih =>
    intro score h
    rcases x with ⟨t, qf⟩
    have hsome := h (t, qf) (List.mem_cons_self _ _)
    rcases ho : lookupA plists t with _ | pl
    · rw [ho] at hsome
      simp at hsome
    · simp only [bm25Go, ho]
      cases hf : lookupA pl articleId with
      | none =>
        dsimp only
        rw [ih score (fun e he => h e (List.mem_cons_of_mem _ he))]
        simp only [specBM25, List.map_cons, List.sum_cons, ho, hf, Option.getD_some,
          Option.getD_none, Nat.cast_zero, mul_zero, zero_div, zero_mul,
          Except.ok.injEq]
        ring
      | some fr =>
        dsimp only
        rw [ih _ (fun e he => h e (List.mem_cons_of_mem _ he))]
        simp only [specBM25, List.map_cons, List.sum_cons, ho, hf, Option.getD_some,
          Except.ok.injEq]
        ring

/-- **C5.** `calculate_bm25` returns exactly the spec's score: the sum over
distinct query terms of `tf_component · qf_component · idf`, with
`K = K1·((1−B) + B·|d|/avgdl)`, `tf = (K1+1)·f/(K+f)` (0 when `f = 0`),
`qf = (K2+1)·qf_t/(K2+qf_t)`, `idf = ln(((N−n_t+0.5)/(n_t+0.5))+1)`, and
`K1 = 1.2`, `B = 0.75`, `K2 = 100`, whenever every query term has a postings
list (as the evaluator guarantees). -/
theorem calculateBM25_matches_spec (articleId articleLength : ℕ)
    (qfreqs : List (ℕ × ℕ)) (avgdl : ℝ) (nArticles : ℕ)
    (plists : List (ℕ × List (ℕ × ℕ)))
    (h : ∀ e ∈ qfreqs, (lookupA plists e.1).isSome) :
    calculateBM25 articleId articleLength qfreqs avgdl nArticles plists =
      .ok (specBM25 articleId articleLength qfreqs avgdl nArticles plists) ∧
    K1 = 1.2 ∧ B = 0.75 ∧ K2 = 100.0 := by
  refine ⟨?_, rfl, rfl, rfl⟩
  unfold calculateBM25
  rw [bm25Go_spec articleId articleLength avgdl nArticles plists qfreqs 0 h, zero_add]

/-- Closed witness for C5 at a concrete query and index. -/
theorem calculateBM25_matches_spec_witness :
    (∀ e ∈ [((0 : ℕ), (1 : ℕ))], (lookupA [((0 : ℕ), [((1 : ℕ), (2 : ℕ))])] e.1).isSome) ∧
    (calculateBM25 1 3 [(0, 1)] 3 1 [(0, [(1, 2)])] =
        .ok (specBM25 1 3 [(0, 1)] 3 1 [(0, [(1, 2)])]) ∧
      K1 = 1.2 ∧ B = 0.75 ∧ K2 = 100.0) :=
  ⟨by decide, calculateBM25_matches_spec 1 3 [(0, 1)] 3 1 [(0, [(1, 2)])] (by decide)⟩

/-! ## Claim C7: the postings-file reader and blank lines -/

theorem natToChars_not_ws : ∀ n : ℕ, ∀ c ∈ natToChars n, isWsChar c = false := by
  intro n
  induction n using Nat.strong_induction_on with
  | _ n ih =>
    intro c hc
    rw [natToChars_unfold n] at hc
    by_cases h10 : n < 10
    · rw [if_pos h10] at hc
      simp only [List.mem_singleton] at hc
      subst hc
      interval_cases n <;> decide
    · rw [if_neg h10] at hc
      rcases List.mem_append.mp hc with hm | hm
      · exact ih (n / 10) (Nat.div_lt_self (by omega) (by omega)) c hm
      · simp only [List.mem_singleton] at hm
        subst hm
        have hlt : n % 10 < 10 := Nat.mod_lt n (by omega)
        set m := n % 10 with hm
        interval_cases m <;> decide

theorem natToChars_ne_nil (n : ℕ) : natToChars n ≠ [] := by
  rw [natToChars_unfold n]
  by_cases h10 : n < 10 <;> simp [h10]

theorem charsToNatGo_append (xs ys : Str) :
    ∀ acc, charsToNatGo acc (xs ++ ys) =
      match charsToNatGo acc xs with
      | some a => charsToNatGo a ys
      | none => none := by
  induction xs with
  | nil => intro acc; rfl
  | cons c cs ih =>
    intro acc
    simp only [List.cons_append, charsToNatGo]
    cases digitVal c with
    | none => rfl
    | some d => exact ih _

theorem digitVal_digitChar : ∀ d : ℕ, d < 10 → digitVal (Nat.digitChar d) = some d := by
  intro d hd
  interval_cases d <;> decide

theorem charsToNatGo_natToChars : ∀ n acc,
    charsToNatGo acc (natToChars n) = some (acc * 10 ^ (natToChars n).length + n) := by
  intro n
  induction n using Nat.strong_induction_on with
  | _ n ih =>
    intro acc
    by_cases h10 : n < 10
    · rw [natToChars_unfold n, if_pos h10]
      simp [charsToNatGo, digitVal_digitChar n h10]
    · rw [natToChars_unfold n, if_neg h10]
      rw [charsToNatGo_append]
      have hdiv : n / 10 < n := Nat.div_lt_self (by omega) (by omega)
      rw [ih (n / 10) hdiv acc]
      have hmod : n % 10 < 10 := Nat.mod_lt n (by omega)
      simp only [charsToNatGo, digitVal_digitChar (n % 10) hmod]
      have harith : (acc * 10 ^ (natToChars (n / 10)).length + n / 10) * 10 + n % 10 =
          acc * 10 ^ ((natToChars (n / 10)).length + 1) + n := by
        rw [pow_succ]
        have := Nat.div_add_mod n 10
        ring_nf
        omega
      simp [List.length_append, harith]

theorem charsToNat_natToChars (n : ℕ) : charsToNat (natToChars n) = some n := by
  cases e : natToChars n with
  | nil => exact absurd e (natToChars_ne_nil n)
  | cons c cs =>
    have h := charsToNatGo_natToChars n 0
    rw [e] at h
    simp only [charsToNat]
    rw [h]
    simp

theorem splitWsGo_boundary : ∀ (xs : Str) (cur : Str),
    (∀ c ∈ xs, isWsChar c = false) → (cur ≠ [] ∨ xs ≠ []) →
    ∀ (w : Char) (rest : Str), isWsChar w = true →
      splitWsGo cur (xs ++ w :: rest) = (cur.reverse ++ xs) :: splitWsGo [] rest := by
  intro xs
  induction xs with
  | nil =>
    intro cur _ hne w rest hw
    have hcur : cur ≠ [] := by
      rcases hne with h | h
      · exact h
      · exact absurd rfl h
    simp [splitWsGo, hw, List.isEmpty_iff, hcur]
  | cons x xs ih =>
    intro cur hnw _ w rest hw
    have hx : isWsChar x = false := hnw x (List.mem_cons_self _ _)
    simp only [List.cons_append, splitWsGo, hx, List.append_eq]
    rw [if_neg (by simp [hx])]
    rw [ih (x :: cur) (fun c hc => hnw c (List.mem_cons_of_mem _ hc)) (Or.inl (by simp)) w rest hw]
    simp

theorem splitWsGo_final : ∀ (xs : Str) (cur : Str),
    (∀ c ∈ xs, isWsChar c = false) → (cur ≠ [] ∨ xs ≠ []) →
      splitWsGo cur xs = [cur.reverse ++ xs] := by
  intro xs
  induction xs with
  | nil =>
    intro cur _ hne
    have hcur : cur ≠ [] := by
      rcases hne with h | h
      · exact h
      · exact absurd rfl h
    simp [splitWsGo, List.isEmpty_iff, hcur]
  | cons x xs ih =>
    intro cur hnw _
    have hx : isWsChar x = false := hnw x (List.mem_cons_self _ _)
    simp only [splitWsGo]
    rw [if_neg (by simp [hx])]
    rw [ih (x :: cur) (fun c hc => hnw c (List.mem_cons_of_mem _ hc)) (Or.inl (by simp))]
    simp

theorem parseLine_renderEntry_nl (a b : ℕ) :
    parseLine (renderEntry (a, b) ++ ['\n']) = .ok (a, b) := by
  have hsplit : splitWs (renderEntry (a, b) ++ ['\n']) = [natToChars a, natToChars b] := by
    have e1 : renderEntry (a, b) ++ ['\n'] =
        natToChars a ++ (' ' :: (natToChars b ++ ['\n'])) := by
      simp [renderEntry, List.append_assoc]
    rw [splitWs, e1,
      splitWsGo_boundary (natToChars a) [] (natToChars_not_ws a)
        (Or.inr (natToChars_ne_nil a)) ' ' _ (by decide)]
    have e2 : natToChars b ++ ['\n'] = natToChars b ++ '\n' :: [] := rfl
    rw [e2, splitWsGo_boundary (natToChars b) [] (natToChars_not_ws b)
        (Or.inr (natToChars_ne_nil b)) '\n' [] (by decide)]
    simp [splitWsGo]
  simp [parseLine, hsplit, charsToNat_natToChars]

theorem parseLine_renderEntry (a b : ℕ) :
    parseLine (renderEntry (a, b)) = .ok (a, b) := by
  have hsplit : splitWs (renderEntry (a, b)) = [natToChars a, natToChars b] := by
    have e1 : renderEntry (a, b) = natToChars a ++ (' ' :: natToChars b) := by
      simp [renderEntry, List.append_assoc]
    rw [splitWs, e1,
      splitWsGo_boundary (natToChars a) [] (natToChars_not_ws a)
        (Or.inr (natToChars_ne_nil a)) ' ' _ (by decide)]
    rw [splitWsGo_final (natToChars b) [] (natToChars_not_ws b)
        (Or.inr (natToChars_ne_nil b))]
    simp
  simp [parseLine, hsplit, charsToNat_natToChars]

theorem fileToLinesGo_nl : ∀ (xs : Str), (∀ c ∈ xs, c ≠ '\n') →
    ∀ (cur rest : Str),
      fileToLinesGo cur (xs ++ '\n' :: rest) =
        ((cur.reverse ++ xs) ++ ['\n']) :: fileToLinesGo [] rest := by
  intro xs
  induction xs with
  | nil => intro _ cur rest; simp [fileToLinesGo]
  | cons x xs ih =>
    intro hnl cur rest
    have hx : x ≠ '\n' := hnl x (List.mem_cons_self _ _)
    simp only [List.cons_append, fileToLinesGo, List.append_eq]
    rw [if_neg hx]
    rw [ih (fun c hc => hnl c (List.mem_cons_of_mem _ hc)) (x :: cur) rest]
    simp

theorem fileToLinesGo_final : ∀ (xs : Str), (∀ c ∈ xs, c ≠ '\n') →
    ∀ (cur : Str), (cur ≠ [] ∨ xs ≠ []) →
      fileToLinesGo cur xs = [cur.reverse ++ xs] := by
  intro xs
  induction xs with
  | nil =>
    intro _ cur hne
    have hcur : cur ≠ [] := by
      rcases hne with h | h
      · exact h
      · exact absurd rfl h
    simp [fileToLinesGo, List.isEmpty_iff, hcur]
  | cons x xs ih =>
    intro hnl cur _
    have hx : x ≠ '\n' := hnl x (List.mem_cons_self _ _)
    simp only [fileToLinesGo, List.append_eq]
    rw [if_neg hx]
    rw [ih (fun c hc => hnl c (List.mem_cons_of_mem _ hc)) (x :: cur) (Or.inl (by simp))]
    simp

theorem renderEntry_no_nl (e : ℕ × ℕ) : ∀ c ∈ renderEntry e, c ≠ '\n' := by
  intro c hc
  rcases e with ⟨a, b⟩
  simp only [renderEntry, List.mem_append, List.mem_singleton] at hc
  rcases hc with (hc | rfl) | hc
  · intro h
    subst h
    have := natToChars_not_ws a _ hc
    simp [isWsChar] at this
  · decide
  · intro h
    subst h
    have := natToChars_not_ws b _ hc
    simp [isWsChar] at this

theorem readLines_renderBatch : ∀ (entries : List (ℕ × ℕ)), entries ≠ [] →
    ∀ (m : List (ℕ × ℕ)),
      readLinesGo m (fileToLines (renderBatch entries)) =
        .ok (entries.foldl (fun m e => insertA m e.1 e.2) m) := by
  intro entries
  induction entries with
  | nil => intro h; exact absurd rfl h
  | cons e tail ih =>
    intro _ m
    cases tail with
    | nil =>
      have e1 : renderBatch [e] = renderEntry e ++ '\n' :: [] := by
        simp [renderBatch, joinLines]
      rw [e1, fileToLines, fileToLinesGo_nl (renderEntry e) (renderEntry_no_nl e) [] []]
      simp only [fileToLinesGo, List.nil_append, List.reverse_nil]
      simp [readLinesGo, parseLine_renderEntry_nl e.1 e.2]
    | cons e2 tail2 =>
      have e1 : renderBatch (e :: e2 :: tail2) =
          renderEntry e ++ '\n' :: renderBatch (e2 :: tail2) := by
        simp [renderBatch, joinLines, List.append_assoc]
      rw [e1, fileToLines, fileToLinesGo_nl (renderEntry e) (renderEntry_no_nl e) []]
      simp only [List.reverse_nil, List.nil_append]
      rw [show fileToLinesGo ([] : Str) (renderBatch (e2 :: tail2)) =
        fileToLines (renderBatch (e2 :: tail2)) from rfl]
      simp only [readLinesGo, parseLine_renderEntry_nl e.1 e.2]
      rw [ih (by simp) (insertA m e.1 e.2)]
      rfl

theorem readLines_joinLines : ∀ (entries : List (ℕ × ℕ)), entries ≠ [] →
    ∀ (m : List (ℕ × ℕ)),
      readLinesGo m (fileToLines (joinLines (entries.map renderEntry))) =
        .ok (entries.foldl (fun m e => insertA m e.1 e.2) m) := by
  intro entries
  induction entries with
  | nil => intro h; exact absurd rfl h
  | cons e tail ih =>
    intro _ m
    cases tail with
    | nil =>
      have e1 : joinLines ([e].map renderEntry) = renderEntry e := by
        simp [joinLines]
      rw [e1, fileToLines,
        fileToLinesGo_final (renderEntry e) (renderEntry_no_nl e) []
          (Or.inr (by rcases e with ⟨a, b⟩; simp [renderEntry, natToChars_ne_nil]))]
      simp [readLinesGo, parseLine_renderEntry e.1 e.2]
    | cons e2 tail2 =>
      have e1 : joinLines ((e :: e2 :: tail2).map renderEntry) =
          renderEntry e ++ '\n' :: joinLines ((e2 :: tail2).map renderEntry) := by
        simp [joinLines]
      rw [e1, fileToLines, fileToLinesGo_nl (renderEntry e) (renderEntry_no_nl e) []]
      simp only [List.reverse_nil, List.nil_append]
      rw [show fileToLinesGo ([] : Str) (joinLines ((e2 :: tail2).map renderEntry)) =
        fileToLines (joinLines ((e2 :: tail2).map renderEntry)) from rfl]
      simp only [readLinesGo, parseLine_renderEntry_nl e.1 e.2]
      rw [ih (by simp) (insertA m e.1 e.2)]
      rfl

/-- **C7 counterexample.** A postings file whose non-blank lines are valid
entries but which contains a blank line between them makes the reader fail:
the claim's "ignores blank lines" is false.  The same file without the blank
line parses fine, as does the builder's own spill of an empty buffer -
`"\n"` - which the reader also rejects. -/
theorem blank_line_not_ignored :
    readPostingsListFile (str "1 2\n\n3 4\n") = .error () ∧
    readPostingsListFile (str "1 2\n3 4\n") = .ok [(1, 2), (3, 4)] ∧
    readPostingsListFile (renderBatch []) = .error () := by
  refine ⟨?_, ?_, ?_⟩ <;> decide

/-- **C7 amended.** The reader succeeds on every file of well-formed entry
lines — with or without the trailing newline — and returns the insert-fold of
the entries; but a blank line is an error, not ignored (so the spilled form
of an empty buffer, `"\n"`, is rejected). -/
theorem postings_reader_amended (entries : List (ℕ × ℕ)) (h : entries ≠ []) :
    readPostingsListFile (renderBatch entries) =
      .ok (entries.foldl (fun m e => insertA m e.1 e.2) []) ∧
    readPostingsListFile (joinLines (entries.map renderEntry)) =
      .ok (entries.foldl (fun m e => insertA m e.1 e.2) []) ∧
    readPostingsListFile (renderBatch []) = .error () := by
  refine ⟨readLines_renderBatch entries h [], readLines_joinLines entries h [], by decide⟩

/-- Closed witness for the amended C7. -/
theorem postings_reader_amended_witness :
    ([((1 : ℕ), (2 : ℕ)), (3, 4)] ≠ []) ∧
    (readPostingsListFile (renderBatch [((1 : ℕ), (2 : ℕ)), (3, 4)]) =
        .ok ([((1 : ℕ), (2 : ℕ)), (3, 4)].foldl (fun m e => insertA m e.1 e.2) []) ∧
      readPostingsListFile (joinLines ([((1 : ℕ), (2 : ℕ)), (3, 4)].map renderEntry)) =
        .ok ([((1 : ℕ), (2 : ℕ)), (3, 4)].foldl (fun m e => insertA m e.1 e.2) []) ∧
      readPostingsListFile (renderBatch []) = .error ()) :=
  ⟨by decide, postings_reader_amended [(1, 2), (3, 4)] (by decide)⟩

/-! ## Claim C9: snippet extraction -/

theorem tokenizeWithPositions_pos_ne_nil (stem : Str → Str) (t : Str) :
    ∀ tok ps, lookupA (tokenizeWithPositions stem t) tok = some ps → ps ≠ [] := by
  unfold tokenizeWithPositions
  suffices h : ∀ (l : List (Str × ℕ)) (m : List (Str × List ℕ)),
      (∀ tok ps, lookupA m tok = some ps → ps ≠ []) →
      ∀ tok ps,
        lookupA (l.foldl (fun m r => upsertA m (stem r.1) [] (fun ps => ps ++ [r.2])) m) tok =
          some ps → ps ≠ [] by
    intro tok ps
    exact h _ [] (by intro tok ps hx; simp [lookupA] at hx) tok ps
  intro l
  induction l with
  | nil => intro m hm; exact hm
  | cons r rest ih =>
    intro m hm
    simp only [List.foldl_cons]
    apply ih
    intro tok ps hl
    rw [lookupA_upsertA] at hl
    by_cases he : tok = stem r.1
    · rw [if_pos he] at hl
      have := (Option.some.injEq _ _).mp hl
      subst this
      simp
    · rw [if_neg he] at hl
      exact hm tok ps hl

/-- Snippet extraction as the claim describes it: scan the given token ids in
order, pick the first whose lexicon token appears in the position map, take
its first position `p`, and emit
`"..." + cleaned[max(0,p−50) .. min(|cleaned|,p+50)] + "..."` with newlines
replaced by spaces (`p − 50` is the truncated ℕ subtraction, i.e.
`max (0, p − 50)`); fail if no token appears. -/
def specSnippet (stem : Str → Str) (articleText : Str) (idsDesc : List ℕ)
    (lex : List (ℕ × Str)) : Except Unit Str :=
  let cleaned := articleText.filter isAsciiChar
  let posMap := tokenizeWithPositions stem cleaned
  match idsDesc.find? (fun tid =>
    match lookupA lex tid with
    | some tok => (lookupA posMap tok).isSome
    | none => false) with
  | none => .error ()
  | some tid =>
    let tok := (lookupA lex tid).getD []
    let ps := (lookupA posMap tok).getD []
    let p := ps.headD 0
    let start := p - SNIPPET_OFFSET
    let stop := min cleaned.length (p + SNIPPET_OFFSET)
    .ok (replaceNl (str "..." ++ (cleaned.drop start).take (stop - start) ++ str "..."))

theorem snippetGo_spec (cleaned : Str) (posMap : List (Str × List ℕ))
    (lex : List (ℕ × Str))
    (hpos : ∀ tok ps, lookupA posMap tok = some ps → ps ≠ []) :
    ∀ l : List (ℕ × ℕ), (∀ e ∈ l, (lookupA lex e.1).isSome) →
      snippetGo cleaned posMap lex l =
        match (l.map Prod.fst).find? (fun tid =>
          match lookupA lex tid with
          | some tok => (lookupA posMap tok).isSome
          | none => false) with
        | none => .error ()
        | some tid =>
          let tok := (lookupA lex tid).getD []
          let ps := (lookupA posMap tok).getD []
          let p := ps.headD 0
          let start := p - SNIPPET_OFFSET
          let stop := min cleaned.length (p + SNIPPET_OFFSET)
          .ok (replaceNl (str "..." ++ (cleaned.drop start).take (stop - start) ++ str "...")) := by
  intro l
  induction l with
  | nil => intro _; rfl
  | cons e rest ih =>
    intro hcov
    rcases e with ⟨tid, cnt⟩
    have hsome := hcov (tid, cnt) (List.mem_cons_self _ _)
    rcases hlex : lookupA lex tid with _ | tok
    · rw [hlex] at hsome
      simp at hsome
    · simp only [snippetGo, hlex, List.map_cons, List.find?_cons]
      rcases hpm : lookupA posMap tok with _ | ps
      · dsimp only
        exact ih (fun e he => hcov e (List.mem_cons_of_mem _ he))
      · dsimp only
        cases ps with
        | nil => exact absurd rfl (hpos tok [] hpm)
        | cons p ps' =>
          simp only [List.head?_cons, hlex, hpm, Option.getD_some, List.headD_cons]
          have hstart : (if SNIPPET_OFFSET < p then p - SNIPPET_OFFSET else 0) =
              p - SNIPPET_OFFSET := by
            split <;> omega
          have hstop : (if cleaned.length < p + SNIPPET_OFFSET then cleaned.length
              else p + SNIPPET_OFFSET) = min cleaned.length (p + SNIPPET_OFFSET) := by
            rw [Nat.min_def]
            split <;> split <;> omega
          rw [hstart, hstop]
          simp only [Option.isSome_some, hlex, hpm, Option.getD_some, List.headD_cons]

/-- **C9.** For every article text and query token-id map whose ids all lie
in the lexicon (as the evaluator guarantees) and which is sorted ascending
(as the `BTreeMap` guarantees), `get_article_snippet` scans the ids in
strictly descending order and equals the claim's description `specSnippet`:
first matching token, first position, the `max/min`-clamped 50-byte window,
newlines replaced, error when no token matches. -/
theorem snippet_matches_spec (stem : Str → Str) (text : Str) (q : List (ℕ × ℕ))
    (lex : List (ℕ × Str))
    (hsort : List.Sorted (· < ·) (q.map Prod.fst))
    (hcov : ∀ e ∈ q, (lookupA lex e.1).isSome) :
    List.Sorted (· > ·) (q.reverse.map Prod.fst) ∧
    getArticleSnippet stem text q lex =
      specSnippet stem text (q.reverse.map Prod.fst) lex := by
  constructor
  · rw [List.map_reverse]
    unfold List.Sorted at *
    rw [List.pairwise_reverse]
    exact hsort
  · unfold getArticleSnippet specSnippet
    rw [snippetGo_spec _ _ lex
      (tokenizeWithPositions_pos_ne_nil stem (text.filter isAsciiChar)) q.reverse
      (fun e he => hcov e (List.mem_reverse.mp he))]

/-- Closed witness for C9 on the demo article and the query map `{1 ↦ 1}`. -/
theorem snippet_matches_spec_witness :
    List.Sorted (· < ·) ([((1 : ℕ), (1 : ℕ))].map Prod.fst) ∧
    (∀ e ∈ [((1 : ℕ), (1 : ℕ))], (lookupA builderAlpha.idToToken e.1).isSome) ∧
    (List.Sorted (· > ·) (([((1 : ℕ), (1 : ℕ))].reverse.map Prod.fst)) ∧
      getArticleSnippet (fun t : Str => t) (str "Hello hello world") [(1, 1)]
          builderAlpha.idToToken =
        specSnippet (fun t : Str => t) (str "Hello hello world")
          ([((1 : ℕ), (1 : ℕ))].reverse.map Prod.fst) builderAlpha.idToToken) :=
  ⟨by simp, by decide,
   snippet_matches_spec (fun t => t) (str "Hello hello world") [(1, 1)]
     builderAlpha.idToToken (by simp) (by decide)⟩

/-! ## Claim C6: the lexicon bijection and first-seen token ids -/

/-- The distinct tokens of a stream in first-seen order. -/
def firstSeen (ts : List Str) : List Str :=
  ts.foldl (fun acc t => if t ∈ acc then acc else acc ++ [t]) []

/-- 0-based index of the first occurrence of `t`. -/
def idxOf : List Str → Str → Option ℕ
  | [], _ => none
  | x :: xs, t => if t = x then some 0 else (idxOf xs t).map (fun i => i + 1)

/-- The lexicon fields of the builder. -/
def lexOf (b : Builder) : ℕ × List (ℕ × Str) × List (Str × ℕ) :=
  (b.curTokenId, b.idToToken, b.tokenToId)

/-- The lexicon effect of one `get_token_id` call. -/
def lexStep (L : ℕ × List (ℕ × Str) × List (Str × ℕ)) (t : Str) :
    ℕ × List (ℕ × Str) × List (Str × ℕ) :=
  match lookupA L.2.2 t with
  | some _ => L
  | none => (L.1 + 1, insertA L.2.1 L.1 t, insertA L.2.2 t L.1)

def lexFeed (L : ℕ × List (ℕ × Str) × List (Str × ℕ)) (ts : List Str) :
    ℕ × List (ℕ × Str) × List (Str × ℕ) :=
  ts.foldl lexStep L

theorem getTokenId_lex (b : Builder) (t : Str) :
    lexOf (getTokenId b t).2 = lexStep (lexOf b) t := by
  unfold getTokenId lexStep lexOf
  cases lookupA b.tokenToId t <;> rfl

theorem getTokenIds_lex (ts : List Str) :
    ∀ b : Builder, lexOf (getTokenIds b ts).2 = lexFeed (lexOf b) ts := by
  induction ts with
  | nil => intro b; rfl
  | cons t ts ih =>
    intro b
    show lexOf (getTokenIds (getTokenId b t).2 ts).2 = _
    rw [ih, getTokenId_lex]
    rfl

theorem updateInvIndexFile_lex (b : Builder) (t : ℕ) :
    lexOf (updateInvIndexFile b t) = lexOf b := by
  unfold updateInvIndexFile
  cases lookupA b.invIndex t <;> rfl

theorem updateInvIndexStep_lex (aid : ℕ) (b : Builder) (tc : ℕ × ℕ) :
    lexOf (updateInvIndexStep aid b tc) = lexOf b := by
  unfold updateInvIndexStep
  dsimp only
  split
  · rw [updateInvIndexFile_lex]
    rfl
  · rfl

theorem updateInvIndex_lex (aid : ℕ) (wc : List (ℕ × ℕ)) :
    ∀ b : Builder, lexOf (updateInvIndex b aid wc) = lexOf b := by
  induction wc with
  | nil => intro b; rfl
  | cons x xs ih =>
    intro b
    have h : updateInvIndex b aid (x :: xs) =
        updateInvIndex (updateInvIndexStep aid b x) aid xs := rfl
    rw [h, ih, updateInvIndexStep_lex]

theorem buildIndex_lex (stem : Str → Str) (b : Builder) (a : ArticleR) :
    lexOf (buildIndex stem b a) = lexFeed (lexOf b) (tokenize stem a.text) := by
  unfold buildIndex
  dsimp only
  have h1 : lexOf { updateInvIndex (getTokenIds b (tokenize stem a.text)).2 a.id
      (countWords (getTokenIds b (tokenize stem a.text)).1) with
      docLengths := insertA (updateInvIndex (getTokenIds b (tokenize stem a.text)).2 a.id
        (countWords (getTokenIds b (tokenize stem a.text)).1)).docLengths a.id
        (tokenize stem a.text).length } =
      lexOf (updateInvIndex (getTokenIds b (tokenize stem a.text)).2 a.id
        (countWords (getTokenIds b (tokenize stem a.text)).1)) := rfl
  rw [h1, updateInvIndex_lex, getTokenIds_lex]

theorem buildAll_lex (stem : Str → Str) (arts : List ArticleR) :
    lexOf (buildAll stem arts) =
      lexFeed (0, [], []) ((arts.map (fun a => tokenize stem a.text)).flatten) := by
  induction arts using List.reverseRecOn with
  | nil => rfl
  | append_singleton arts a ih =>
    have h1 : buildAll stem (arts ++ [a]) = buildIndex stem (buildAll stem arts) a := by
      unfold buildAll
      rw [List.foldl_append]
      rfl
    rw [h1, buildIndex_lex, ih]
    unfold lexFeed
    rw [List.map_append, List.flatten_append]
    simp [List.foldl_append]

theorem firstSeen_append (ts : List Str) (t : Str) :
    firstSeen (ts ++ [t]) =
      if t ∈ firstSeen ts then firstSeen ts else firstSeen ts ++ [t] := by
  unfold firstSeen
  rw [List.foldl_append]
  rfl

theorem idxOf_none_iff : ∀ (F : List Str) (t : Str), idxOf F t = none ↔ t ∉ F := by
  intro F
  induction F with
  | nil => intro t; simp [idxOf]
  | cons x xs ih =>
    intro t
    by_cases ht : t = x
    · subst ht
      simp [idxOf]
    · simp [idxOf, ht, Option.map_eq_none', ih]

theorem idxOf_append (F : List Str) (x : Str) (t : Str) :
    idxOf (F ++ [x]) t =
      match idxOf F t with
      | some i => some i
      | none => if t = x then some F.length else none := by
  induction F with
  | nil => simp [idxOf]
  | cons y F ih =>
    by_cases ht : t = y
    · subst ht
      simp [idxOf]
    · simp only [List.cons_append, idxOf, ht, if_false, List.append_eq]
      rw [ih]
      cases idxOf F t with
      | some i => rfl
      | none =>
        by_cases hx : t = x <;> simp [hx]

def nthOpt : List Str → ℕ → Option Str
  | [], _ => none
  | x :: _, 0 => some x
  | _ :: xs, i + 1 => nthOpt xs i

theorem nthOpt_concat (F : List Str) (t : Str) :
    ∀ i, nthOpt (F ++ [t]) i = if i = F.length then some t else nthOpt F i := by
  induction F with
  | nil =>
    intro i
    cases i with
    | zero => simp [nthOpt]
    | succ i => cases i <;> simp [nthOpt]
  | cons x F ih =>
    intro i
    cases i with
    | zero => simp [nthOpt]
    | succ i =>
      have e1 : nthOpt ((x :: F) ++ [t]) (i + 1) = nthOpt (F ++ [t]) i := rfl
      have e2 : nthOpt (x :: F) (i + 1) = nthOpt F i := rfl
      rw [e1, ih i, e2, List.length_cons]
      by_cases h : i = F.length
      · simp [h]
      · simp [h, show ¬(i + 1 = F.length + 1) from fun hh => h (by omega)]

/-- The running invariant of the lexicon: after feeding a token stream `ts`,
the id map is the positional map of `firstSeen ts` and the token map its
index map. -/
theorem lexFeed_inv (ts : List Str) :
    (lexFeed (0, [], []) ts).1 = (firstSeen ts).length ∧
    (∀ i, lookupA (lexFeed (0, [], []) ts).2.1 i = nthOpt (firstSeen ts) i) ∧
    (∀ t, lookupA (lexFeed (0, [], []) ts).2.2 t = idxOf (firstSeen ts) t) := by
  induction ts using List.reverseRecOn with
  | nil =>
    refine ⟨rfl, ?_, ?_⟩
    · intro i
      cases i <;> rfl
    · intro t
      rfl
  | append_singleton ts t ih =>
    rcases ih with ⟨ih1, ih2, ih3⟩
    have hfeed : lexFeed (0, [], []) (ts ++ [t]) = lexStep (lexFeed (0, [], []) ts) t := by
      unfold lexFeed
      rw [List.foldl_append]
      rfl
    rw [hfeed, firstSeen_append]
    rcases hlk : lookupA (lexFeed (0, [], []) ts).2.2 t with _ | i
    · -- new token: t ∉ firstSeen ts
      have hnotmem : t ∉ firstSeen ts := by
        rw [ih3] at hlk
        exact (idxOf_none_iff (firstSeen ts) t).mp hlk
      rw [if_neg hnotmem]
      have hstep : lexStep (lexFeed (0, [], []) ts) t =
          ((lexFeed (0, [], []) ts).1 + 1,
           insertA (lexFeed (0, [], []) ts).2.1 (lexFeed (0, [], []) ts).1 t,
           insertA (lexFeed (0, [], []) ts).2.2 t (lexFeed (0, [], []) ts).1) := by
        unfold lexStep
        rw [hlk]
      rw [hstep]
      refine ⟨?_, ?_, ?_⟩
      · simp [ih1]
      · intro i
        rw [lookupA_insertA, nthOpt_concat, ih1]
        by_cases h : i = (firstSeen ts).length <;> simp [h, ih2]
      · intro t'
        rw [lookupA_insertA, idxOf_append, ih3, ih1]
        by_cases h : t' = t
        · subst h
          rw [if_pos rfl, (idxOf_none_iff (firstSeen ts) t').mpr hnotmem]
          simp
        · rw [if_neg h]
          cases idxOf (firstSeen ts) t' with
          | some j => rfl
          | none => simp [h]
    · -- seen token: t ∈ firstSeen ts
      have hmem : t ∈ firstSeen ts := by
        by_contra hnm
        rw [ih3, (idxOf_none_iff (firstSeen ts) t).mpr hnm] at hlk
        exact Option.noConfusion hlk
      rw [if_pos hmem]
      have hstep : lexStep (lexFeed (0, [], []) ts) t = lexFeed (0, [], []) ts := by
        unfold lexStep
        rw [hlk]
      rw [hstep]
      exact ⟨ih1, ih2, ih3⟩

theorem firstSeen_nodup (ts : List Str) : (firstSeen ts).Nodup := by
  induction ts using List.reverseRecOn with
  | nil => exact List.nodup_nil
  | append_singleton ts t ih =>
    rw [firstSeen_append]
    by_cases h : t ∈ firstSeen ts
    · simpa [h] using ih
    · simp [h, List.nodup_append, ih]

theorem nthOpt_mem : ∀ (F : List Str) (i : ℕ) (t : Str), nthOpt F i = some t → t ∈ F := by
  intro F
  induction F with
  | nil => intro i t h; simp [nthOpt] at h
  | cons x F ih =>
    intro i t h
    cases i with
    | zero =>
      simp [nthOpt] at h
      simp [h]
    | succ i => exact List.mem_cons_of_mem _ (ih i t h)

theorem nthOpt_isSome : ∀ (F : List Str) (i : ℕ), (nthOpt F i).isSome ↔ i < F.length := by
  intro F
  induction F with
  | nil => intro i; simp [nthOpt]
  | cons x F ih =>
    intro i
    cases i with
    | zero => simp [nthOpt]
    | succ i =>
      simp only [nthOpt, List.length_cons]
      rw [ih i]
      omega

theorem nthOpt_idxOf (F : List Str) (h : F.Nodup) :
    ∀ (i : ℕ) (t : Str), nthOpt F i = some t ↔ idxOf F t = some i := by
  induction F with
  | nil => intro i t; simp [nthOpt, idxOf]
  | cons x F ih =>
    rw [List.nodup_cons] at h
    intro i t
    cases i with
    | zero =>
      by_cases ht : t = x
      · subst ht
        simp [nthOpt, idxOf]
      · simp only [nthOpt, idxOf]
        constructor
        · intro hx
          exact absurd ((Option.some.injEq _ _).mp hx).symm ht
        · intro hx
          rw [if_neg ht] at hx
          rcases Option.map_eq_some'.mp hx with ⟨j, _, hj⟩
          omega
    | succ i =>
      by_cases ht : t = x
      · subst ht
        simp only [nthOpt, idxOf, if_pos rfl]
        constructor
        · intro hx
          exact absurd (nthOpt_mem F i t hx) h.1
        · intro hx
          have := (Option.some.injEq _ _).mp hx
          omega
      · simp only [nthOpt, idxOf, if_neg ht]
        rw [ih h.2 i t]
        constructor
        · intro hx
          rw [hx]
          rfl
        · intro hx
          rcases Option.map_eq_some'.mp hx with ⟨j, hj1, hj2⟩
          have : j = i := by omega
          subst this
          exact hj1

/-- **C6.** After any sequence of ingest calls, the id-to-token and
token-to-id maps are mutually inverse, their key set is exactly `[0, N)`
where `N` is the number of distinct tokens seen so far, no token is bound to
two ids, and the id of each token is its 0-based first-seen index in the
ingested token stream. -/
theorem lexicon_bijection_invariant (stem : Str → Str) (arts : List ArticleR) :
    ((buildAll stem arts).curTokenId =
      (firstSeen ((arts.map (fun a => tokenize stem a.text)).flatten)).length) ∧
    (∀ i tok, lookupA (buildAll stem arts).idToToken i = some tok ↔
      lookupA (buildAll stem arts).tokenToId tok = some i) ∧
    (∀ i, (lookupA (buildAll stem arts).idToToken i).isSome ↔
      i < (buildAll stem arts).curTokenId) ∧
    (∀ tok, lookupA (buildAll stem arts).tokenToId tok =
      idxOf (firstSeen ((arts.map (fun a => tokenize stem a.text)).flatten)) tok) ∧
    (∀ i j tok, lookupA (buildAll stem arts).idToToken i = some tok →
      lookupA (buildAll stem arts).idToToken j = some tok → i = j) := by
  have hlex := buildAll_lex stem arts
  have hc : (buildAll stem arts).curTokenId =
      (lexFeed (0, [], []) ((arts.map (fun a => tokenize stem a.text)).flatten)).1 :=
    congrArg Prod.fst hlex
  have hid : (buildAll stem arts).idToToken =
      (lexFeed (0, [], []) ((arts.map (fun a => tokenize stem a.text)).flatten)).2.1 :=
    congrArg (fun p => p.2.1) hlex
  have htm : (buildAll stem arts).tokenToId =
      (lexFeed (0, [], []) ((arts.map (fun a => tokenize stem a.text)).flatten)).2.2 :=
    congrArg (fun p => p.2.2) hlex
  rcases lexFeed_inv ((arts.map (fun a => tokenize stem a.text)).flatten) with ⟨i1, i2, i3⟩
  have hnd := firstSeen_nodup ((arts.map (fun a => tokenize stem a.text)).flatten)
  refine ⟨?_, ?_, ?_, ?_, ?_⟩
  · rw [hc, i1]
  · intro i tok
    rw [hid, htm, i2 i, i3 tok]
    exact nthOpt_idxOf _ hnd i tok
  · intro i
    rw [hid, hc, i2 i, i1]
    exact nthOpt_isSome _ i
  · intro tok
    rw [htm, i3 tok]
  · intro i j tok h1 h2
    rw [hid, i2 i] at h1
    rw [hid, i2 j] at h2
    have e1 := (nthOpt_idxOf _ hnd i tok).mp h1
    have e2 := (nthOpt_idxOf _ hnd j tok).mp h2
    rw [e1] at e2
    exact (Option.some.injEq _ _).mp e2

/-! ## Claim C3: the 10,000-article "cap" matches ids, not a count -/

/-- The events of one `<page>` holding a single `<id>` element. -/
def pageEvents (i : ℕ) : List XmlEv :=
  [.startEl "id", .chars (natToChars i), .endEl "id", .endEl "page"]

def pagesFor (ids : List ℕ) : List XmlEv := (ids.map pageEvents).flatten

theorem stepPage (i c : ℕ) (subs : List DumpArticle)
    (h1 : i ≠ 10000) (h2 : i < 4294967296) :
    List.foldl stepDump ⟨.other, freshDumpArticle, c, subs, .running⟩ (pageEvents i) =
      ⟨.other, freshDumpArticle, c + 1, subs ++ [⟨i, [], []⟩], .running⟩ := by
  have s1 : stepDump ⟨.other, freshDumpArticle, c, subs, .running⟩ (.startEl "id") =
      ⟨.idT, freshDumpArticle, c, subs, .running⟩ := rfl
  have s2 : stepDump ⟨.idT, freshDumpArticle, c, subs, .running⟩ (.chars (natToChars i)) =
      ⟨.idT, ⟨i, [], []⟩, c, subs, .running⟩ := by
    simp [stepDump, freshDumpArticle, charsToNat_natToChars, h2]
  have s3 : stepDump ⟨.idT, ⟨i, [], []⟩, c, subs, .running⟩ (.endEl "id") =
      ⟨.other, ⟨i, [], []⟩, c, subs, .running⟩ := rfl
  have s4 : stepDump ⟨.other, ⟨i, [], []⟩, c, subs, .running⟩ (.endEl "page") =
      ⟨.other, freshDumpArticle, c + 1, subs ++ [⟨i, [], []⟩], .running⟩ := by
    simp [stepDump, h1]
  simp only [pageEvents, List.foldl_cons, List.foldl_nil, s1, s2, s3, s4]

theorem pagesFor_run : ∀ (ids : List ℕ), (∀ i ∈ ids, i ≠ 10000 ∧ i < 4294967296) →
    ∀ (c : ℕ) (subs : List DumpArticle),
      List.foldl stepDump ⟨.other, freshDumpArticle, c, subs, .running⟩ (pagesFor ids) =
        ⟨.other, freshDumpArticle, c + ids.length,
         subs ++ ids.map (fun i => ⟨i, [], []⟩), .running⟩ := by
  intro ids
  induction ids with
  | nil => intro _ c subs; simp [pagesFor]
  | cons i ids ih =>
    intro h c subs
    have hfl : pagesFor (i :: ids) = pageEvents i ++ pagesFor ids := by
      simp [pagesFor]
    rw [hfl, List.foldl_append,
      stepPage i c subs (h i (List.mem_cons_self _ _)).1 (h i (List.mem_cons_self _ _)).2]
    rw [ih (fun j hj => h j (List.mem_cons_of_mem _ hj)) (c + 1)
      (subs ++ [({ id := i, title := [], text := [] } : DumpArticle)])]
    congr 1
    · simp only [List.length_cons]
      omega
    · simp

/-- 10,001 page ids, none equal to 10,000. -/
def bigIds : List ℕ := (List.range 10001).map (fun k => 20000 + k)

/-- **C3 counterexample.** Feeding 10,001 pages whose article ids avoid
10,000 completes 10,001 articles: the loop does not stop after 10,000
completed articles, because the `break` compares the article id — not a
count — against 10,000. -/
theorem article_cap_exceeded :
    (parseDump (pagesFor bigIds)).count = 10001 ∧
    ¬ (parseDump (pagesFor bigIds)).count ≤ 10000 := by
  have h : ∀ i ∈ bigIds, i ≠ 10000 ∧ i < 4294967296 := by
    intro i hi
    rcases List.mem_map.mp hi with ⟨k, hk, rfl⟩
    have := List.mem_range.mp hk
    omega
  have e : parseDump (pagesFor bigIds) =
      ⟨.other, freshDumpArticle, 0 + bigIds.length,
       [] ++ bigIds.map (fun i => ⟨i, [], []⟩), .running⟩ := by
    unfold parseDump
    exact pagesFor_run bigIds h 0 []
  rw [e]
  simp [bigIds]

/-- The state invariant of the ingestion loop: completed equals submitted,
an article with id 10,000 can only be the last submission, and the loop is
`stopped` only right after submitting such an article. -/
def DumpInv (st : DumpState) : Prop :=
  st.count = st.subs.length ∧
  (∀ a ∈ st.subs.dropLast, a.id ≠ 10000) ∧
  (st.status = .running → ∀ a ∈ st.subs, a.id ≠ 10000) ∧
  (st.status = .stopped → ∃ a, st.subs.getLast? = some a ∧ a.id = 10000)

theorem stepDump_inv (st : DumpState) (e : XmlEv) (h : DumpInv st) :
    DumpInv (stepDump st e) := by
  rcases st with ⟨tag, art, count, subs, status⟩
  rcases h with ⟨h1, h2, h3, h4⟩
  dsimp only at h1 h2 h3 h4
  cases status with
  | stopped => exact ⟨h1, h2, h3, h4⟩
  | errored => exact ⟨h1, h2, h3, h4⟩
  | panicked => exact ⟨h1, h2, h3, h4⟩
  | running =>
    cases e with
    | startEl n => exact ⟨h1, h2, h3, h4⟩
    | otherEv => exact ⟨h1, h2, h3, h4⟩
    | errEv =>
      have estep : stepDump ⟨tag, art, count, subs, .running⟩ .errEv =
          ⟨tag, art, count, subs, .errored⟩ := rfl
      rw [estep]
      refine ⟨h1, h2, ?_, ?_⟩ <;> intro hh <;> exact DumpStatus.noConfusion hh
    | endEl n =>
      by_cases hp : n = "page"
      · by_cases hid : art.id = 10000
        · have estep : stepDump ⟨tag, art, count, subs, .running⟩ (.endEl n) =
              ⟨.other, art, count + 1, subs ++ [art], .stopped⟩ := by
            simp [stepDump, hp, hid]
          rw [estep]
          refine ⟨by simp [h1], ?_, ?_, ?_⟩
          · intro a ha
            rw [List.dropLast_concat] at ha
            exact h3 rfl a ha
          · intro hh
            exact DumpStatus.noConfusion hh
          · intro _
            exact ⟨art, List.getLast?_concat subs, hid⟩
        · have estep : stepDump ⟨tag, art, count, subs, .running⟩ (.endEl n) =
              ⟨.other, freshDumpArticle, count + 1, subs ++ [art], .running⟩ := by
            simp [stepDump, hp, hid]
          rw [estep]
          refine ⟨by simp [h1], ?_, ?_, ?_⟩
          · intro a ha
            rw [List.dropLast_concat] at ha
            exact h3 rfl a ha
          · intro _ a ha
            rcases List.mem_append.mp ha with hm | hm
            · exact h3 rfl a hm
            · simp only [List.mem_singleton] at hm
              subst hm
              exact hid
          · intro hh
            exact DumpStatus.noConfusion hh
      · have estep : stepDump ⟨tag, art, count, subs, .running⟩ (.endEl n) =
            ⟨.other, art, count, subs, .running⟩ := by
          simp [stepDump, hp]
        rw [estep]
        exact ⟨h1, h2, h3, h4⟩
    | chars s =>
      cases tag with
      | title => exact ⟨h1, h2, h3, h4⟩
      | text => exact ⟨h1, h2, h3, h4⟩
      | other => exact ⟨h1, h2, h3, h4⟩
      | idT =>
        by_cases hs : art.id = U32_SENTINEL
        · cases hcn : charsToNat s with
          | none =>
            have estep : stepDump ⟨.idT, art, count, subs, .running⟩ (.chars s) =
                ⟨.idT, art, count, subs, .panicked⟩ := by
              simp [stepDump, hs, hcn]
            rw [estep]
            refine ⟨h1, h2, ?_, ?_⟩ <;> intro hh <;> exact DumpStatus.noConfusion hh
          | some m =>
            by_cases hn : m < 4294967296
            · have estep : stepDump ⟨.idT, art, count, subs, .running⟩ (.chars s) =
                  ⟨.idT, { art with id := m }, count, subs, .running⟩ := by
                simp [stepDump, hs, hcn, hn]
              rw [estep]
              exact ⟨h1, h2, h3, h4⟩
            · have estep : stepDump ⟨.idT, art, count, subs, .running⟩ (.chars s) =
                  ⟨.idT, art, count, subs, .panicked⟩ := by
                simp [stepDump, hs, hcn, hn]
              rw [estep]
              refine ⟨h1, h2, ?_, ?_⟩ <;> intro hh <;> exact DumpStatus.noConfusion hh
        · have estep : stepDump ⟨.idT, art, count, subs, .running⟩ (.chars s) =
              ⟨.idT, art, count, subs, .running⟩ := by
            simp [stepDump, hs]
          rw [estep]
          exact ⟨h1, h2, h3, h4⟩

theorem foldl_stepDump_inv : ∀ (events : List XmlEv) (st : DumpState),
    DumpInv st → DumpInv (List.foldl stepDump st events) := by
  intro events
  induction events with
  | nil => intro st h; exact h
  | cons e es ih =>
    intro st h
    exact ih (stepDump st e) (stepDump_inv st e h)

/-- **C3 amended.** For every event stream: each completed article is
submitted (count = number of submissions); the loop stops only on the
article id — an article with id 10,000 is necessarily the final submission,
and once the loop has stopped the last submission has id 10,000; the count
of completed articles is otherwise unbounded (it reaches 10,001 in
`article_cap_exceeded`). -/
theorem article_cap_matches_id (events : List XmlEv) :
    (parseDump events).count = (parseDump events).subs.length ∧
    (∀ a ∈ (parseDump events).subs.dropLast, a.id ≠ 10000) ∧
    ((parseDump events).status = .running → ∀ a ∈ (parseDump events).subs, a.id ≠ 10000) ∧
    ((parseDump events).status = .stopped →
      ∃ a, (parseDump events).subs.getLast? = some a ∧ a.id = 10000) := by
  have hinit : DumpInv initDumpState := by
    refine ⟨rfl, ?_, ?_, ?_⟩
    · intro a ha
      simp [initDumpState] at ha
    · intro _ a ha
      simp [initDumpState] at ha
    · intro hh
      simp [initDumpState] at hh
  exact foldl_stepDump_inv events initDumpState hinit
